import Mathlib

/-!
Verification of the unit-algebra core of the kul (Kokkos units library)
header.  The definitions below are a shallow embedding of the C++
source: machine integers (std::int64_t, int) become unbounded Int, the
gcd-reduced rational class becomes a two-field structure built by the
same reducing constructor, the virtual `unit` hierarchy becomes a tagged
inductive type over named / power / product nodes, and the compile-time
(template) unit algebra becomes a second inductive type whose structural
equality models C++ type identity.  Floating-point payloads are modelled
by exact rationals (the Rat type).
-/

namespace Kul

/-! ## Section [rational]
Model of `kul::rational` (source part_000, lines 26-112).  The C++
constructor reduces by the gcd of the absolute values and reattaches the
sign to the numerator.  The C++ ints are modelled as unbounded Int; the
gcd loop operates on the (non-negative) absolute values, so it is
modelled on Nat. -/

/-! One step of the Euclidean loop `kul::gcd` (while b: (a,b) <- (b, a mod b)),
with a fuel argument so the definition is structurally recursive; the loop
variable b strictly decreases, so fuel b+1 always suffices. -/
def kgcdF : Nat → Nat → Nat → Nat
  | 0, a, _ => a
  | f + 1, a, b => if b = 0 then a else kgcdF f b (a % b)

/-- Model of the Euclidean loop `kul::gcd`. -/
def kgcd (a b : Nat) : Nat := kgcdF (b + 1) a b

structure rational where
  num : Int
  den : Int
deriving DecidableEq, Repr

/-- Model of the reducing constructor `rational(numerator_arg, denominator_arg)`:
divide the absolute values by their gcd and reattach the sign to the numerator. -/
def rmk (n d : Int) : rational :=
  let an : Nat := n.natAbs
  let ad : Nat := d.natAbs
  let c : Nat := kgcd an ad
  let rn : Nat := an / c
  let rd : Nat := ad / c
  let neg : Bool := (decide (n < 0)) != (decide (d < 0))
  ⟨if neg then -(rn : Int) else (rn : Int), (rd : Int)⟩

/-- Model of `rational(numerator_arg)` which delegates to the two-argument constructor. -/
def rmk1 (n : Int) : rational := rmk n 1

/-- Model of `inverse(a)`: constructs `rational(a.denominator(), a.numerator())`. -/
def rinv (a : rational) : rational := rmk a.den a.num

/-- Model of `operator*(a, b)` on rationals. -/
def rmul (a b : rational) : rational := rmk (a.num * b.num) (a.den * b.den)

/-- Model of `operator/(a, b)` on rationals: `a * inverse(b)`. -/
def rdiv (a b : rational) : rational := rmul a (rinv b)

/-- Model of `pow(b, e)` on rationals: repeated multiply for positive e,
repeated divide for negative e, starting from `rational(1)`. -/
def rpowAux (b : rational) : Nat → rational
  | 0 => rmk1 1
  | n + 1 => rmul (rpowAux b n) b

def rpowDivAux (b : rational) : Nat → rational
  | 0 => rmk1 1
  | n + 1 => rdiv (rpowDivAux b n) b

def rpow (b : rational) (e : Int) : rational :=
  if 0 ≤ e then rpowAux b e.toNat else rpowDivAux b (-e).toNat

/-- Model of `convert_to<T>` with the payload type instantiated at exact
rationals: `T(numerator) / T(denominator)`. -/
def toQ (a : rational) : ℚ := (a.num : ℚ) / (a.den : ℚ)

/-- The invariant claimed by the spec: strictly positive denominator and
gcd of |numerator| and denominator equal to one. -/
def reduced (a : rational) : Prop :=
  0 < a.den ∧ Nat.gcd a.num.natAbs a.den.natAbs = 1

instance (a : rational) : Decidable (reduced a) := by
  unfold reduced; infer_instance

/-- Well-formedness of a magnitude: reduced and nonzero. -/
def goodr (a : rational) : Prop := reduced a ∧ a.num ≠ 0

instance (a : rational) : Decidable (goodr a) := by
  unfold goodr; infer_instance

/-! ## Section [dimension]
Model of `kul::dimension` (source lines 116-254): seven signed exponents
over the SI base quantities, with componentwise multiply (add), divide
(subtract), pow (scale) and equality. -/

structure dimension where
  time : Int
  length : Int
  mass : Int
  current : Int
  temperature : Int
  amount : Int
  luminous : Int
deriving DecidableEq, Repr

/-- Model of `dimension::dimensionless()`, the zero vector. -/
def dimensionless : dimension := ⟨0, 0, 0, 0, 0, 0, 0⟩

def dim_time : dimension := ⟨1, 0, 0, 0, 0, 0, 0⟩

def dim_length : dimension := ⟨0, 1, 0, 0, 0, 0, 0⟩

def dim_mass : dimension := ⟨0, 0, 1, 0, 0, 0, 0⟩

def dim_temperature : dimension := ⟨0, 0, 0, 0, 1, 0, 0⟩

/-- Model of `operator*` on dimensions: componentwise addition. -/
def dim_mul (a b : dimension) : dimension :=
  ⟨a.time + b.time, a.length + b.length, a.mass + b.mass, a.current + b.current,
   a.temperature + b.temperature, a.amount + b.amount, a.luminous + b.luminous⟩

/-- Model of `operator/` on dimensions: componentwise subtraction. -/
def dim_div (a b : dimension) : dimension :=
  ⟨a.time - b.time, a.length - b.length, a.mass - b.mass, a.current - b.current,
   a.temperature - b.temperature, a.amount - b.amount, a.luminous - b.luminous⟩

/-- Model of `pow` on dimensions: componentwise scaling by the exponent. -/
def dim_pow (d : dimension) (e : Int) : dimension :=
  ⟨d.time * e, d.length * e, d.mass * e, d.current * e,
   d.temperature * e, d.amount * e, d.luminous * e⟩

/-! ## Section [dynamic]
Model of the run-time unit hierarchy (source lines 301-663).  A
`dynamic_unit` owns one of three node kinds: a named (crtp) leaf, a
`dynamic_exp` power node, or a `dynamic_product` node holding a vector of
terms.  The vector becomes the mutually inductive list type DTerms.  The
boolean on a named leaf records whether its dynamic type is the class
`kul::unitless` (i.e. whether `dynamic_cast<unitless const*>` succeeds);
the leaf otherwise carries the (dimension, magnitude, origin) data that
its virtual property functions return.  Display names are cosmetic and
excluded from unit equality (source line 314), so they are not modelled. -/

mutual
inductive DUnit where
  | named (d : dimension) (m : rational) (o : Option rational) (uflag : Bool)
  | exp (base : DUnit) (e : Int)
  | prod (terms : DTerms)
deriving DecidableEq, Repr
inductive DTerms where
  | nil
  | cons (head : DUnit) (tail : DTerms)
deriving DecidableEq, Repr
end

/-- Model of `dynamic_cast<unitless const*>(...) != nullptr`: true exactly
when the node's dynamic type is the class `unitless`. -/
def isUnitlessClass : DUnit → Bool
  | .named _ _ _ u => u
  | _ => false

/-! Model of virtual `dimension()`.  A `dynamic_exp` returns
`pow(base.dimension(), exponent)`; a `dynamic_product` dereferences the
first term and folds `operator*` over the rest, which for an empty term
vector reads a nonexistent element — modelled as `none`. -/
mutual
def dDimension : DUnit → Option dimension
  | .named d _ _ _ => some d
  | .exp b e =>
      match dDimension b with
      | some x => some (dim_pow x e)
      | none => none
  | .prod .nil => none
  | .prod (.cons t ts) => dDimFold (dDimension t) ts
def dDimFold : Option dimension → DTerms → Option dimension
  | acc, .nil => acc
  | acc, .cons t ts =>
      dDimFold (match acc, dDimension t with
        | some a, some b => some (dim_mul a b)
        | _, _ => none) ts
end

/-! Model of virtual `magnitude()`, with the same first-term/fold shape as
`dimension()`. -/
mutual
def dMagnitude : DUnit → Option rational
  | .named _ m _ _ => some m
  | .exp b e =>
      match dMagnitude b with
      | some x => some (rpow x e)
      | none => none
  | .prod .nil => none
  | .prod (.cons t ts) => dMagFold (dMagnitude t) ts
def dMagFold : Option rational → DTerms → Option rational
  | acc, .nil => acc
  | acc, .cons t ts =>
      dMagFold (match acc, dMagnitude t with
        | some a, some b => some (rmul a b)
        | _, _ => none) ts
end

/-! Model of virtual `origin()`: a named leaf returns its own optional
origin; `dynamic_exp::origin` and `dynamic_product::origin` return nullopt
unconditionally (source lines 454-457 and 599-602). -/
def dOrigin : DUnit → Option rational
  | .named _ _ o _ => o
  | .exp _ _ => none
  | .prod _ => none

/-- Model of `operator==(unit const&, unit const&)` (source lines 314-319):
equality of the (dimension, magnitude, origin) triple. -/
def unitEqD (a b : DUnit) : Prop :=
  dDimension a = dDimension b ∧ dMagnitude a = dMagnitude b ∧ dOrigin a = dOrigin b

instance (a b : DUnit) : Decidable (unitEqD a b) := by
  unfold unitEqD; infer_instance

/-- The `unitless` leaf (source lines 359-365): dimensionless dimension,
magnitude rational(1), no origin, and of dynamic type `unitless`. -/
def unitlessD : DUnit := .named dimensionless (rmk1 1) none true

def secondD : DUnit := .named dim_time (rmk1 1) none false

def meterD : DUnit := .named dim_length (rmk1 1) none false

def inchD : DUnit := .named dim_length (rmk 254 10000) none false

def gramD : DUnit := .named dim_mass (rmk 1 1000) none false

/-- The `radian` leaf (source lines 1098-1104): dimensionless dimension,
magnitude rational(1), no origin — value-equal to `unitless` but of a
different dynamic type. -/
def radianD : DUnit := .named dimensionless (rmk1 1) none false

def dappend : DTerms → DUnit → DTerms
  | .nil, u => .cons u .nil
  | .cons h t, u => .cons h (dappend t u)

/-- Model of `dynamic_product::push_back_unless_unitless` (source lines
485-490): append the term unless its dynamic type is the `unitless` class. -/
def pushBackUnlessUnitless (l : DTerms) (t : DUnit) : DTerms :=
  if isUnitlessClass t then l else dappend l t

/-- Helper equal to building the result with push_back_unless_unitless in
source order. -/
def pushFrontSimp (s : DUnit) (rest : DTerms) : DTerms :=
  if isUnitlessClass s then rest else .cons s rest

/-! Model of `unit::simplify` across the three node kinds: a named leaf
copies itself; `dynamic_exp::simplify` collapses exponent 0 to `unitless`
and exponent 1 to a copy of the (unsimplified) base; and
`dynamic_product::simplify` (source lines 607-616) simplifies every term,
drops terms of class `unitless`, then collapses the empty product to
`unitless` and a one-term product to its term. -/
mutual
def dsimplify : DUnit → DUnit
  | .named d m o u => .named d m o u
  | .exp b e => if e = 0 then unitlessD else if e = 1 then b else .exp b e
  | .prod ts =>
      match dsimpTerms ts with
      | .nil => unitlessD
      | .cons u .nil => u
      | l => .prod l
def dsimpTerms : DTerms → DTerms
  | .nil => .nil
  | .cons t ts => pushFrontSimp (dsimplify t) (dsimpTerms ts)
end

/-- Model of `dynamic_product::multiply_with(dynamic_exp const&)` (source
lines 491-502): scan the terms in order; at the first term whose base is
unit-equal to the incoming base, replace it by a power of the incoming
base with the summed exponent; otherwise append a new power term at the
end.  Every term of a product built by the `operator*`, `operator/` and
`root` pipelines is a power node; the fall-through branch for a
non-power term is unreachable there (the C++ performs an unchecked
reference cast). -/
def mergeExp : DTerms → DUnit → Int → DTerms
  | .nil, b, e => .cons (.exp b e) .nil
  | .cons (.exp b1 e1) ts, b, e =>
      if unitEqD b1 b then .cons (.exp b (e1 + e)) ts
      else .cons (.exp b1 e1) (mergeExp ts b e)
  | .cons t ts, b, e => .cons t (mergeExp ts b e)

/-! Model of `multiply_with(dynamic_unit const&)` (source lines 527-545):
dispatch on the dynamic node kind; a product is folded in term by term, a
power merges by exponent arithmetic, a named leaf is wrapped as a power
with exponent 1. -/
mutual
def mulWith : DTerms → DUnit → DTerms
  | l, .named d m o u => mergeExp l (.named d m o u) 1
  | l, .exp b e => mergeExp l b e
  | l, .prod ts => mulWithList l ts
def mulWithList : DTerms → DTerms → DTerms
  | l, .nil => l
  | l, .cons t ts => mulWithList (mulWith l t) ts
end

/-! Model of `divide_by(dynamic_unit const&)` (source lines 546-564):
as multiplication with the exponents negated before folding. -/
mutual
def divWith : DTerms → DUnit → DTerms
  | l, .named d m o u => mergeExp l (.named d m o u) (-1)
  | l, .exp b e => mergeExp l b (-e)
  | l, .prod ts => divWithList l ts
def divWithList : DTerms → DTerms → DTerms
  | l, .nil => l
  | l, .cons t ts => divWithList (divWith l t) ts
end

/-! Model of `operator*(dynamic_unit const&, dynamic_unit const&)` (source
lines 623-629): fold both operands into a fresh product, then simplify. -/
def dmul (a b : DUnit) : DUnit :=
  dsimplify (.prod (mulWith (mulWith .nil a) b))

/-- Model of `operator/(dynamic_unit const&, dynamic_unit const&)` (source
lines 631-637). -/
def ddiv (a b : DUnit) : DUnit :=
  dsimplify (.prod (divWith (mulWith .nil a) b))

/-! Model of `root(dynamic_unit const&, int)` (source lines 639-663):
a named leaf throws; a power node throws unless its exponent is evenly
divisible by the requested root, else divides and simplifies; a product
node distributes the root over its terms, folding the rooted terms into a
fresh product, and simplifies.  A thrown `std::runtime_error` is modelled
as `none`. -/
mutual
def droot : DUnit → Int → Option DUnit
  | .named _ _ _ _, _ => none
  | .exp b x, e =>
      if Int.tmod x e = 0 then some (dsimplify (.exp b (Int.tdiv x e))) else none
  | .prod ts, e =>
      match drootList ts e .nil with
      | some l => some (dsimplify (.prod l))
      | none => none
def drootList : DTerms → Int → DTerms → Option DTerms
  | .nil, _, acc => some acc
  | .cons t ts, e, acc =>
      match droot t e with
      | none => none
      | some r => drootList ts e (mulWith acc r)
end

/-! Well-formedness of a dynamic description, as produced by this
library's constructors: named leaves are relative (the header defines no
origin-bearing named unit) with a reduced nonzero magnitude, a leaf of
dynamic type `unitless` has the data of the `unitless` class, and product
nodes are nonempty (a `dynamic_product` is only exposed after
construction put at least one term into it). -/
mutual
def wfD : DUnit → Bool
  | .named d m o u =>
      decide (o = none) && decide (goodr m) &&
        (!u || (decide (d = dimensionless) && decide (m = rmk1 1)))
  | .exp b _ => wfD b
  | .prod .nil => false
  | .prod (.cons t ts) => wfD t && wfDL ts
def wfDL : DTerms → Bool
  | .nil => true
  | .cons t ts => wfD t && wfDL ts
end

/-! ## Section [static]
Model of the compile-time unit algebra (source lines 675-1005).  A static
unit is a C++ type; structural equality of the inductive below models
C++ type identity.  A leaf carries a class identifier (distinct source
classes get distinct identifiers) together with the values of its
static_dimension / static_magnitude / static_origin members; `rel`
models the `make_relative<T>` wrapper, `pow` models `static_pow<Base,
Exponent>`, and `prod` models `static_product<Units...>`. -/

mutual
inductive SUnit where
  | leaf (id : Nat) (d : dimension) (m : rational) (o : Option rational)
  | rel (base : SUnit)
  | pow (base : SUnit) (e : Int)
  | prod (terms : STerms)
deriving DecidableEq, Repr
inductive STerms where
  | nil
  | cons (head : SUnit) (tail : STerms)
deriving DecidableEq, Repr
end

/-! Model of `static_dimension()`:  `static_pow` scales by the exponent
(line 681), `make_relative` forwards to its base (line 996), the empty
product is dimensionless (line 697), a one-unit product forwards to its
unit (line 710), and a longer product multiplies the first unit's
dimension with its tail's (lines 729-732). -/
mutual
def sDimension : SUnit → dimension
  | .leaf _ d _ _ => d
  | .rel b => sDimension b
  | .pow b e => dim_pow (sDimension b) e
  | .prod ts => sDimensionL ts
def sDimensionL : STerms → dimension
  | .nil => dimensionless
  | .cons t .nil => sDimension t
  | .cons t ts => dim_mul (sDimension t) (sDimensionL ts)
end

/-! Model of `static_magnitude()`, with the same shape as the dimension
members (lines 682, 698, 711, 733-736, 997). -/
mutual
def sMagnitude : SUnit → rational
  | .leaf _ _ m _ => m
  | .rel b => sMagnitude b
  | .pow b e => rpow (sMagnitude b) e
  | .prod ts => sMagnitudeL ts
def sMagnitudeL : STerms → rational
  | .nil => rmk1 1
  | .cons t .nil => sMagnitude t
  | .cons t ts => rmul (sMagnitude t) (sMagnitudeL ts)
end

/-- Model of `static_origin()`: a named leaf has its own origin while
`static_pow`, `make_relative` and every `static_product` specialization
return nullopt (lines 683, 699, 712, 737, 998). -/
def sOrigin : SUnit → Option rational
  | .leaf _ _ _ o => o
  | .rel _ => none
  | .pow _ _ => none
  | .prod _ => none

/-- Model of `are_equal<A, B>` (source lines 986-990): equality of the
static (dimension, magnitude, origin) triple. -/
def unitEqS (a b : SUnit) : Prop :=
  sDimension a = sDimension b ∧ sMagnitude a = sMagnitude b ∧ sOrigin a = sOrigin b

instance (a b : SUnit) : Decidable (unitEqS a b) := by
  unfold unitEqS; infer_instance

/-- The `unitless` class as a static type. -/
def unitlessS : SUnit := .leaf 0 dimensionless (rmk1 1) none

def secondS : SUnit := .leaf 1 dim_time (rmk1 1) none

def meterS : SUnit := .leaf 2 dim_length (rmk1 1) none

def inchS : SUnit := .leaf 3 dim_length (rmk 254 10000) none

def gramS : SUnit := .leaf 4 dim_mass (rmk 1 1000) none

def radianS : SUnit := .leaf 5 dimensionless (rmk1 1) none

/-- Model of `is_absolute<T>` (source line 1002). -/
def isAbsoluteS (u : SUnit) : Bool := (sOrigin u).isSome

/-- Model of the term-list body of `multiply_with<static_product<...>,
static_pow<Base, Exponent>>` (source lines 807-823): fold the incoming
power into the term list, merging with the first existing power whose
base is the same type, else appending at the end. -/
def smulPowTerms : STerms → SUnit → Int → STerms
  | .nil, b, e => .cons (.pow b e) .nil
  | .cons (.pow b1 e1) ts, b, e =>
      if b1 = b then .cons (.pow b (e1 + e)) ts
      else .cons (.pow b1 e1) (smulPowTerms ts b e)
  | .cons f ts, b, e => .cons f (smulPowTerms ts b e)

/-- Model of the corresponding `divide_by` specializations (source lines
847-863), which negate or subtract the incoming exponent. -/
def sdivPowTerms : STerms → SUnit → Int → STerms
  | .nil, b, e => .cons (.pow b (-e)) .nil
  | .cons (.pow b1 e1) ts, b, e =>
      if b1 = b then .cons (.pow b (e1 - e)) ts
      else .cons (.pow b1 e1) (sdivPowTerms ts b e)
  | .cons f ts, b, e => .cons f (sdivPowTerms ts b e)

/-- Folding a power into a non-product left-hand side instantiates the
primary template with itself and never terminates; the canonicalized
pipeline only reaches the product case. -/
def smulWithPow : SUnit → SUnit → Int → SUnit
  | .prod l, b, e => .prod (smulPowTerms l b e)
  | x, _, _ => x

def sdivWithPow : SUnit → SUnit → Int → SUnit
  | .prod l, b, e => .prod (sdivPowTerms l b e)
  | x, _, _ => x

/-! Model of `multiply_with<A, B>` (source lines 801-839): a power folds
directly; an empty product leaves A unchanged (line 826); a nonempty
product folds its first unit and recurses on the rest (lines 831-836);
any other B is wrapped as `static_pow<B, 1>` by the primary template
(lines 801-805). -/
mutual
def smulWith : SUnit → SUnit → SUnit
  | A, .pow b e => smulWithPow A b e
  | A, .prod ts => smulWithList A ts
  | A, .leaf i d m o => smulWithPow A (.leaf i d m o) 1
  | A, .rel b => smulWithPow A (.rel b) 1
def smulWithList : SUnit → STerms → SUnit
  | A, .nil => A
  | A, .cons f ts => smulWithList (smulWith A f) ts
end

/-! Model of `divide_by<A, B>` (source lines 841-879). -/
mutual
def sdivWith : SUnit → SUnit → SUnit
  | A, .pow b e => sdivWithPow A b e
  | A, .prod ts => sdivWithList A ts
  | A, .leaf i d m o => sdivWithPow A (.leaf i d m o) 1
  | A, .rel b => sdivWithPow A (.rel b) 1
def sdivWithList : SUnit → STerms → SUnit
  | A, .nil => A
  | A, .cons f ts => sdivWithList (sdivWith A f) ts
end

/-- Model of `prepend_unless_unitless_t` (source lines 786-799): prepend
the simplified term unless it is the type `unitless`. -/
def prependUnlessUnitless (s : SUnit) (rest : STerms) : STerms :=
  if s = unitlessS then rest else .cons s rest

/-- Model of `simplify_product` (source lines 916-932): collapse the empty
product to `unitless` and a one-term product to its term. -/
def sProdCollapse : STerms → SUnit
  | .nil => unitlessS
  | .cons t .nil => t
  | l => .prod l

/-! Model of `simplify<T>` (source lines 881-942): exponent 0 collapses
to `unitless`, exponent 1 to the base type; a product simplifies each
term, drops terms of type `unitless`, then collapses one-term and empty
products; every other type is left unchanged. -/
mutual
def ssimplify : SUnit → SUnit
  | .pow b e => if e = 0 then unitlessS else if e = 1 then b else .pow b e
  | .prod ts => sProdCollapse (ssimpTerms ts)
  | x => x
def ssimpTerms : STerms → STerms
  | .nil => .nil
  | .cons t ts => prependUnlessUnitless (ssimplify t) (ssimpTerms ts)
end

/-- Model of `canonicalize_t<T> = multiply_with_t<static_product<>, T>`
(source line 945). -/
def canonicalizeS (A : SUnit) : SUnit := smulWith (.prod .nil) A

/-- Model of `multiply<A, B> = simplify_t<multiply_with_t<canonicalize_t<A>, B>>`
(source line 948). -/
def smultiply (A B : SUnit) : SUnit := ssimplify (smulWith (canonicalizeS A) B)

/-- Model of `divide<A, B>` (source line 951). -/
def sdivide (A B : SUnit) : SUnit := ssimplify (sdivWith (canonicalizeS A) B)

/-- Model of `make_relative<T>` as a type transformation. -/
def makeRelative (u : SUnit) : SUnit := .rel u

/-! Well-formedness of a static description: every leaf is relative with
a reduced nonzero magnitude (the header defines no origin-bearing named
unit). -/
mutual
def wfS : SUnit → Bool
  | .leaf _ _ m o => decide (o = none) && decide (goodr m)
  | .rel b => wfS b
  | .pow b _ => wfS b
  | .prod ts => wfSL ts
def wfSL : STerms → Bool
  | .nil => true
  | .cons t ts => wfS t && wfSL ts
end

/-! ## Section [convert]
Model of the conversion engine (source lines 1009-1042) with the payload
numeric type T instantiated at exact rationals.  The constructor computes
multiplier = (old_magnitude / new_magnitude).convert_to<T>() and an
offset starting at zero, adding the converted old origin over the new
magnitude if present and subtracting the converted new origin over the
new magnitude if present. -/

structure conversion where
  multiplier : ℚ
  offset : ℚ
deriving DecidableEq, Repr

def convMk (old_mag : rational) (old_origin : Option rational)
    (new_mag : rational) (new_origin : Option rational) : conversion :=
  { multiplier := toQ (rdiv old_mag new_mag)
    offset :=
      (0 + (match old_origin with
            | some o => toQ (rdiv o new_mag)
            | none => 0))
      - (match new_origin with
         | some o => toQ (rdiv o new_mag)
         | none => 0) }

/-- Model of `conversion::operator()(old_value)`: old * multiplier + offset. -/
def convApply (c : conversion) (v : ℚ) : ℚ := v * c.multiplier + c.offset

/-- Model of the dynamic-path constructor `conversion(unit const& from,
unit const& to)` (source lines 1025-1032), which queries the two units'
virtual magnitude and origin members and delegates; querying an empty
product has no value to read, hence the option. -/
def dconversion (u v : DUnit) : Option conversion :=
  match dMagnitude u, dMagnitude v with
  | some a, some b => some (convMk a (dOrigin u) b (dOrigin v))
  | _, _ => none

/-- Model of `static_conversion<T, From, To>` (source lines 1039-1042). -/
def sconversion (A B : SUnit) : conversion :=
  convMk (sMagnitude A) (sOrigin A) (sMagnitude B) (sOrigin B)

/-! ## Section [quantity]
Static-unit quantity arithmetic relevant to the claims (source lines
1195-1217), with the payload modelled as an exact rational.  The
operator+ overload exists only for relative units; operator- has a
relative overload keeping the unit and an absolute overload producing
`make_relative` of the unit.  A missing overload is modelled as `none`. -/

def qadd (u : SUnit) (a b : ℚ) : Option (SUnit × ℚ) :=
  if isAbsoluteS u then none else some (u, a + b)

def qsub (u : SUnit) (a b : ℚ) : Option (SUnit × ℚ) :=
  if isAbsoluteS u then some (makeRelative u, a - b) else some (u, a - b)

/-! ## Claim-support definitions -/

/-- The term vector of a dynamic product as a Lean list. -/
def DTerms.toList : DTerms → List DUnit
  | .nil => []
  | .cons t ts => t :: ts.toList

/-- Checks that no term of the list has dynamic type `unitless`. -/
def noUnitlessClassTerms : DTerms → Bool
  | .nil => true
  | .cons t ts => !(isUnitlessClass t) && noUnitlessClassTerms ts

/-- Data of an affine (origin-bearing) named temperature unit such as
degree Celsius: the spec treats named unit descriptions as opaque inputs
satisfying the unit capability, and an origin-bearing one is admissible
(the conversion engine and `make_relative` exist for exactly this case). -/
def celsiusD : DUnit := .named dim_temperature (rmk1 1) (some (rmk 27315 100)) false

def kelvinD : DUnit := .named dim_temperature (rmk1 1) none false

/-- The static counterpart of the affine temperature unit. -/
def celsiusS : SUnit := .leaf 6 dim_temperature (rmk1 1) (some (rmk 27315 100))

/-! ## Claim C7: the dynamic root operation -/

/-- Taking the root of every element of a list of terms, propagating an
error from any element. -/
def rootEach (e : Int) : List DUnit → Option (List DUnit)
  | [] => some []
  | t :: ts =>
      match droot t e, rootEach e ts with
      | some r, some rs => some (r :: rs)
      | _, _ => none

/-! ## Value semantics of dynamic descriptions
Total dimension and magnitude semantics used to reason about the
Option-valued property queries on well-formed descriptions. -/

mutual
def vdim : DUnit → dimension
  | .named d _ _ _ => d
  | .exp b e => dim_pow (vdim b) e
  | .prod ts => vdimL ts
def vdimL : DTerms → dimension
  | .nil => dimensionless
  | .cons t ts => dim_mul (vdim t) (vdimL ts)
end

mutual
def vmag : DUnit → ℚ
  | .named _ m _ _ => toQ m
  | .exp b e => vmag b ^ e
  | .prod ts => vmagL ts
def vmagL : DTerms → ℚ
  | .nil => 1
  | .cons t ts => vmag t * vmagL ts
end

theorem kgcdF_eq_gcd (f : Nat) : ∀ a b : Nat, b < f → kgcdF f a b = Nat.gcd b a := by
  induction f with
  | zero => intro a b h; omega
  | succ g ih =>
    intro a b h
    rw [kgcdF]
    by_cases hb : b = 0
    · simp [hb]
    · rw [if_neg hb]
      have hlt : a % b < b := Nat.mod_lt a (Nat.pos_of_ne_zero hb)
      rw [ih b (a % b) (by omega)]
      exact (Nat.gcd_rec b a).symm

theorem kgcd_comm (a b : Nat) : kgcd a b = Nat.gcd a b := by
  rw [kgcd, kgcdF_eq_gcd (b + 1) a b (Nat.lt_succ_self b), Nat.gcd_comm]

theorem rmk_num_def (n d : Int) :
    (rmk n d).num = (if ((decide (n < 0)) != (decide (d < 0))) = true
      then -((n.natAbs / kgcd n.natAbs d.natAbs : Nat) : Int)
      else ((n.natAbs / kgcd n.natAbs d.natAbs : Nat) : Int)) := rfl

theorem rmk_den_def (n d : Int) :
    (rmk n d).den = ((d.natAbs / kgcd n.natAbs d.natAbs : Nat) : Int) := rfl

theorem rmk_den_pos (n d : Int) (hd : d ≠ 0) : 0 < (rmk n d).den := by
  have had : d.natAbs ≠ 0 := fun h => hd (Int.natAbs_eq_zero.mp h)
  have hc : 0 < kgcd n.natAbs d.natAbs := by
    rw [kgcd_comm]
    exact Nat.gcd_pos_of_pos_right _ (Nat.pos_of_ne_zero had)
  have hdvd : kgcd n.natAbs d.natAbs ∣ d.natAbs := by
    rw [kgcd_comm]; exact Nat.gcd_dvd_right _ _
  have : 0 < d.natAbs / kgcd n.natAbs d.natAbs :=
    Nat.div_pos (Nat.le_of_dvd (Nat.pos_of_ne_zero had) hdvd) hc
  rw [rmk_den_def]
  exact_mod_cast this

theorem rmk_reduced (n d : Int) (hd : d ≠ 0) : reduced (rmk n d) := by
  refine ⟨rmk_den_pos n d hd, ?_⟩
  have had : d.natAbs ≠ 0 := fun h => hd (Int.natAbs_eq_zero.mp h)
  have hc : 0 < Nat.gcd n.natAbs d.natAbs :=
    Nat.gcd_pos_of_pos_right _ (Nat.pos_of_ne_zero had)
  have hco : Nat.Coprime (n.natAbs / Nat.gcd n.natAbs d.natAbs)
      (d.natAbs / Nat.gcd n.natAbs d.natAbs) := Nat.coprime_div_gcd_div_gcd hc
  show Nat.gcd (rmk n d).num.natAbs (rmk n d).den.natAbs = 1
  have hnum : (rmk n d).num.natAbs = n.natAbs / kgcd n.natAbs d.natAbs := by
    rw [rmk_num_def]
    by_cases hneg : ((decide (n < 0)) != (decide (d < 0))) = true
    · rw [if_pos hneg, Int.natAbs_neg, Int.natAbs_ofNat]
    · rw [if_neg hneg, Int.natAbs_ofNat]
  have hden : (rmk n d).den.natAbs = d.natAbs / kgcd n.natAbs d.natAbs := by
    rw [rmk_den_def, Int.natAbs_ofNat]
  rw [hnum, hden, kgcd_comm]
  exact hco

theorem rmk_num_ne_zero (n d : Int) (hn : n ≠ 0) (_hd : d ≠ 0) : (rmk n d).num ≠ 0 := by
  have han : n.natAbs ≠ 0 := fun h => hn (Int.natAbs_eq_zero.mp h)
  have hc : 0 < kgcd n.natAbs d.natAbs := by
    rw [kgcd_comm]
    exact Nat.gcd_pos_of_pos_left _ (Nat.pos_of_ne_zero han)
  have hdvd : kgcd n.natAbs d.natAbs ∣ n.natAbs := by
    rw [kgcd_comm]; exact Nat.gcd_dvd_left _ _
  have hpos : 0 < n.natAbs / kgcd n.natAbs d.natAbs :=
    Nat.div_pos (Nat.le_of_dvd (Nat.pos_of_ne_zero han) hdvd) hc
  rw [rmk_num_def]
  by_cases hneg : ((decide (n < 0)) != (decide (d < 0))) = true
  · rw [if_pos hneg]
    intro h
    omega
  · rw [if_neg hneg]
    intro h
    omega

theorem rmk_goodr (n d : Int) (hn : n ≠ 0) (hd : d ≠ 0) : goodr (rmk n d) :=
  ⟨rmk_reduced n d hd, rmk_num_ne_zero n d hn hd⟩

theorem dim_mul_comm (a b : dimension) : dim_mul a b = dim_mul b a := by
  cases a; cases b; simp only [dim_mul, dimension.mk.injEq]; omega

theorem dim_mul_assoc (a b c : dimension) :
    dim_mul (dim_mul a b) c = dim_mul a (dim_mul b c) := by
  cases a; cases b; cases c
  simp only [dim_mul, dimension.mk.injEq]; omega

theorem dim_mul_one (a : dimension) : dim_mul a dimensionless = a := by
  cases a; simp only [dim_mul, dimensionless, dimension.mk.injEq]; omega

theorem dim_one_mul (a : dimension) : dim_mul dimensionless a = a := by
  rw [dim_mul_comm, dim_mul_one]

theorem dim_pow_one (a : dimension) : dim_pow a 1 = a := by
  cases a; simp only [dim_pow, dimension.mk.injEq]; omega

theorem dim_pow_zero (a : dimension) : dim_pow a 0 = dimensionless := by
  cases a; simp only [dim_pow, dimensionless, dimension.mk.injEq]; omega

theorem dim_pow_add (a : dimension) (e1 e2 : Int) :
    dim_pow a (e1 + e2) = dim_mul (dim_pow a e1) (dim_pow a e2) := by
  cases a; simp only [dim_pow, dim_mul, dimension.mk.injEq]
  refine ⟨?_, ?_, ?_, ?_, ?_, ?_, ?_⟩ <;> ring

theorem dim_mul_cancel (a b : dimension) : dim_div (dim_mul a b) b = a := by
  cases a; cases b; simp only [dim_mul, dim_div, dimension.mk.injEq]; omega

/-- Cross-multiplication identity for the reducing constructor. -/
theorem rmk_cross (n d : Int) : (rmk n d).num * d = n * (rmk n d).den := by
  have hdvd1 : kgcd n.natAbs d.natAbs ∣ n.natAbs := by
    rw [kgcd_comm]; exact Nat.gcd_dvd_left _ _
  have hdvd2 : kgcd n.natAbs d.natAbs ∣ d.natAbs := by
    rw [kgcd_comm]; exact Nat.gcd_dvd_right _ _
  set c := kgcd n.natAbs d.natAbs with hc
  have h1 : c * (n.natAbs / c) = n.natAbs := Nat.mul_div_cancel' hdvd1
  have h2 : c * (d.natAbs / c) = d.natAbs := Nat.mul_div_cancel' hdvd2
  have h1i : (c : Int) * ((n.natAbs / c : Nat) : Int) = (n.natAbs : Int) := by
    exact_mod_cast h1
  have h2i : (c : Int) * ((d.natAbs / c : Nat) : Int) = (d.natAbs : Int) := by
    exact_mod_cast h2
  rw [rmk_num_def, rmk_den_def, ← hc]
  set A : Int := ((n.natAbs / c : Nat) : Int) with hA
  set B : Int := ((d.natAbs / c : Nat) : Int) with hB
  by_cases hn : n < 0 <;> by_cases hdn : d < 0
  · rw [decide_eq_true hn, decide_eq_true hdn, if_neg (by decide)]
    have hn2 : n = -((c : Int) * A) := by rw [h1i]; omega
    have hd2 : d = -((c : Int) * B) := by rw [h2i]; omega
    rw [hn2, hd2]
    ring
  · rw [decide_eq_true hn, decide_eq_false hdn, if_pos (by decide)]
    have hn2 : n = -((c : Int) * A) := by rw [h1i]; omega
    have hd2 : d = (c : Int) * B := by rw [h2i]; omega
    rw [hn2, hd2]
    ring
  · rw [decide_eq_false hn, decide_eq_true hdn, if_pos (by decide)]
    have hn2 : n = (c : Int) * A := by rw [h1i]; omega
    have hd2 : d = -((c : Int) * B) := by rw [h2i]; omega
    rw [hn2, hd2]
    ring
  · rw [decide_eq_false hn, decide_eq_false hdn, if_neg (by decide)]
    have hn2 : n = (c : Int) * A := by rw [h1i]; omega
    have hd2 : d = (c : Int) * B := by rw [h2i]; omega
    rw [hn2, hd2]
    ring

theorem toQ_rmk (n d : Int) (hd : d ≠ 0) : toQ (rmk n d) = (n : ℚ) / (d : ℚ) := by
  have hden : (rmk n d).den ≠ 0 := by
    have := rmk_den_pos n d hd; omega
  have hcross := rmk_cross n d
  unfold toQ
  rw [div_eq_div_iff]
  · exact_mod_cast hcross
  · exact_mod_cast hden
  · exact_mod_cast hd

theorem reduced_den_ne_zero {a : rational} (h : reduced a) : a.den ≠ 0 := by
  have := h.1; omega

theorem toQ_ne_zero {a : rational} (h : goodr a) : toQ a ≠ 0 := by
  unfold toQ
  have h1 : (a.num : ℚ) ≠ 0 := Int.cast_ne_zero.mpr h.2
  have h2 : (a.den : ℚ) ≠ 0 := Int.cast_ne_zero.mpr (reduced_den_ne_zero h.1)
  exact div_ne_zero h1 h2

theorem goodr_rmul {a b : rational} (ha : goodr a) (hb : goodr b) : goodr (rmul a b) :=
  rmk_goodr _ _ (mul_ne_zero ha.2 hb.2)
    (mul_ne_zero (reduced_den_ne_zero ha.1) (reduced_den_ne_zero hb.1))

theorem toQ_rmul {a b : rational} (ha : a.den ≠ 0) (hb : b.den ≠ 0) :
    toQ (rmul a b) = toQ a * toQ b := by
  unfold rmul
  rw [toQ_rmk _ _ (mul_ne_zero ha hb)]
  unfold toQ
  push_cast
  rw [div_mul_div_comm]

theorem goodr_rinv {a : rational} (ha : goodr a) : goodr (rinv a) :=
  rmk_goodr _ _ (reduced_den_ne_zero ha.1) ha.2

theorem toQ_rinv {a : rational} (ha : a.num ≠ 0) : toQ (rinv a) = (toQ a)⁻¹ := by
  unfold rinv
  rw [toQ_rmk _ _ ha]
  unfold toQ
  rw [inv_div]

theorem goodr_rdiv {a b : rational} (ha : goodr a) (hb : goodr b) : goodr (rdiv a b) :=
  goodr_rmul ha (goodr_rinv hb)

theorem toQ_rdiv {a b : rational} (had : a.den ≠ 0) (hbn : b.num ≠ 0) :
    toQ (rdiv a b) = toQ a / toQ b := by
  unfold rdiv
  have hinv : (rinv b).den ≠ 0 := by
    have := rmk_den_pos b.den b.num hbn; unfold rinv; omega
  rw [toQ_rmul had hinv, toQ_rinv hbn, div_eq_mul_inv]

theorem rmk1_one_eq : rmk1 1 = ⟨1, 1⟩ := by decide

theorem goodr_one : goodr (rmk1 1) := by
  rw [rmk1_one_eq]
  refine ⟨⟨?_, ?_⟩, ?_⟩ <;> decide

theorem toQ_one : toQ (rmk1 1) = 1 := by
  rw [rmk1_one_eq]
  norm_num [toQ]

theorem goodr_rpowAux {b : rational} (hb : goodr b) (n : Nat) : goodr (rpowAux b n) := by
  induction n with
  | zero => exact goodr_one
  | succ m ih => exact goodr_rmul ih hb

theorem goodr_rpowDivAux {b : rational} (hb : goodr b) (n : Nat) : goodr (rpowDivAux b n) := by
  induction n with
  | zero => exact goodr_one
  | succ m ih => exact goodr_rdiv ih hb

theorem goodr_rpow {b : rational} (hb : goodr b) (e : Int) : goodr (rpow b e) := by
  unfold rpow
  by_cases he : 0 ≤ e
  · rw [if_pos he]; exact goodr_rpowAux hb _
  · rw [if_neg he]; exact goodr_rpowDivAux hb _

theorem toQ_rpowAux {b : rational} (hb : goodr b) (n : Nat) :
    toQ (rpowAux b n) = toQ b ^ (n : Int) := by
  induction n with
  | zero => simpa using toQ_one
  | succ m ih =>
    have hg : goodr (rpowAux b m) := goodr_rpowAux hb m
    rw [rpowAux, toQ_rmul (reduced_den_ne_zero hg.1) (reduced_den_ne_zero hb.1), ih]
    rw [Nat.cast_succ, zpow_add_one₀ (toQ_ne_zero hb)]

theorem toQ_rpowDivAux {b : rational} (hb : goodr b) (n : Nat) :
    toQ (rpowDivAux b n) = toQ b ^ (-(n : Int)) := by
  induction n with
  | zero => simpa using toQ_one
  | succ m ih =>
    have hg : goodr (rpowDivAux b m) := goodr_rpowDivAux hb m
    rw [rpowDivAux, toQ_rdiv (reduced_den_ne_zero hg.1) hb.2, ih, div_eq_mul_inv,
      ← zpow_neg_one (toQ b), ← zpow_add₀ (toQ_ne_zero hb)]
    congr 1
    push_cast
    ring

theorem toQ_rpow {b : rational} (hb : goodr b) (e : Int) :
    toQ (rpow b e) = toQ b ^ e := by
  unfold rpow
  by_cases he : 0 ≤ e
  · rw [if_pos he, toQ_rpowAux hb, Int.toNat_of_nonneg he]
  · rw [if_neg he, toQ_rpowDivAux hb]
    congr 1
    omega

/-- Two reduced rationals with the same exact value are structurally equal:
the reduced representation is canonical. -/
theorem rational_eq_of_toQ_eq {a b : rational} (ha : reduced a) (hb : reduced b)
    (h : toQ a = toQ b) : a = b := by
  have had : a.den ≠ 0 := reduced_den_ne_zero ha
  have hbd : b.den ≠ 0 := reduced_den_ne_zero hb
  have hcross : a.num * b.den = b.num * a.den := by
    have h2 : (a.num : ℚ) / (a.den : ℚ) = (b.num : ℚ) / (b.den : ℚ) := h
    rw [div_eq_div_iff (Int.cast_ne_zero.mpr had) (Int.cast_ne_zero.mpr hbd)] at h2
    exact_mod_cast h2
  have hadp : 0 < a.den := ha.1
  have hbdp : 0 < b.den := hb.1
  have hato : a.den.natAbs = a.den.toNat := by omega
  have hbto : b.den.natAbs = b.den.toNat := by omega
  have hanz : a.den.toNat ≠ 0 := by omega
  have hbnz : b.den.toNat ≠ 0 := by omega
  have haco : a.num.natAbs.Coprime a.den.toNat := by
    rw [← hato]; exact ha.2
  have hbco : b.num.natAbs.Coprime b.den.toNat := by
    rw [← hbto]; exact hb.2
  have hq : Rat.mk' a.num a.den.toNat hanz haco = Rat.mk' b.num b.den.toNat hbnz hbco := by
    rw [Rat.mk'_eq_divInt, Rat.mk'_eq_divInt]
    rw [Rat.divInt_eq_divInt (by omega) (by omega)]
    rw [Int.toNat_of_nonneg (le_of_lt ha.1), Int.toNat_of_nonneg (le_of_lt hb.1)]
    exact hcross
  have hnum : a.num = b.num := congrArg Rat.num hq
  have hden : a.den.toNat = b.den.toNat := congrArg Rat.den hq
  have : a.den = b.den := by omega
  cases a; cases b
  simp_all

/-- Multiplying a reduced rational by the rational one reproduces it structurally. -/
theorem rmk_of_reduced {a : rational} (ha : reduced a) : rmk a.num a.den = a := by
  apply rational_eq_of_toQ_eq (rmk_reduced _ _ (reduced_den_ne_zero ha)) ha
  rw [toQ_rmk _ _ (reduced_den_ne_zero ha)]
  rfl

/-! ## Claim theorems (first batch) -/

/-- C10: every power node and every product node reports an absent
origin, regardless of its base or terms, in both the dynamic realization
(`dynamic_exp::origin`, `dynamic_product::origin`) and the static one
(`static_pow`, every `static_product` specialization), so a unit built as
a power or product is relative even when built from absolute units. -/
theorem c10_power_product_origin :
    (∀ (b : DUnit) (e : Int), dOrigin (DUnit.exp b e) = none) ∧
    (∀ ts : DTerms, dOrigin (DUnit.prod ts) = none) ∧
    (∀ (b : SUnit) (e : Int), sOrigin (SUnit.pow b e) = none) ∧
    (∀ ts : STerms, sOrigin (SUnit.prod ts) = none) :=
  ⟨fun _ _ => rfl, fun _ => rfl, fun _ _ => rfl, fun _ => rfl⟩

/-- C3 counterexample: in the dynamic realization, querying the dimension
or magnitude of a product with no terms does not succeed (the C++ code
dereferences the begin iterator of an empty vector), so the claim that in
both realizations an empty product's property queries succeed and compare
equal to the dimensionless unit fails on the dynamic side. -/
theorem c3_counterexample :
    dDimension (DUnit.prod DTerms.nil) = none ∧
    dMagnitude (DUnit.prod DTerms.nil) = none ∧
    ¬ unitEqD (DUnit.prod DTerms.nil) unitlessD := by
  refine ⟨rfl, rfl, ?_⟩
  intro h
  cases h.1

/-- C3 amended: the static empty product has dimensionless dimension,
magnitude rational(1) and absent origin, and equals the dimensionless
unit under the static unit-equality test; the dynamic empty product has
an absent origin and simplifies to the `unitless` unit, but its direct
dimension and magnitude queries read a nonexistent first term and do not
produce a value. -/
theorem c3_amended_empty_product :
    sDimension (SUnit.prod STerms.nil) = dimensionless ∧
    sMagnitude (SUnit.prod STerms.nil) = rmk1 1 ∧
    sOrigin (SUnit.prod STerms.nil) = none ∧
    unitEqS (SUnit.prod STerms.nil) unitlessS ∧
    dOrigin (DUnit.prod DTerms.nil) = none ∧
    dsimplify (DUnit.prod DTerms.nil) = unitlessD ∧
    dDimension (DUnit.prod DTerms.nil) = none ∧
    dMagnitude (DUnit.prod DTerms.nil) = none := by
  refine ⟨rfl, rfl, rfl, ⟨rfl, rfl, rfl⟩, rfl, rfl, rfl, rfl⟩

/-- C2 counterexample: `radian` is equal to the dimensionless unit under
the (dimension, magnitude, origin) unit-equality test, yet appending it
is not a drop (it is pushed), and the simplified product radian^1 *
meter^1 still contains a term equal to the dimensionless unit. -/
theorem c2_counterexample :
    unitEqD radianD unitlessD ∧
    pushBackUnlessUnitless DTerms.nil radianD = DTerms.cons radianD DTerms.nil ∧
    dsimplify (DUnit.prod (DTerms.cons (DUnit.exp radianD 1)
        (DTerms.cons (DUnit.exp meterD 1) DTerms.nil)))
      = DUnit.prod (DTerms.cons radianD (DTerms.cons meterD DTerms.nil)) := by
  refine ⟨⟨rfl, rfl, rfl⟩, rfl, rfl⟩

theorem noUnitless_dsimpTerms : ∀ ts : DTerms, noUnitlessClassTerms (dsimpTerms ts) = true
  | .nil => rfl
  | .cons t ts => by
    rw [dsimpTerms]
    unfold pushFrontSimp
    by_cases h : isUnitlessClass (dsimplify t) = true
    · rw [if_pos h]
      exact noUnitless_dsimpTerms ts
    · rw [if_neg h]
      unfold noUnitlessClassTerms
      rw [Bool.not_eq_true] at h
      rw [h, noUnitless_dsimpTerms ts]
      rfl

/-- C2 amended: the append of `push_back_unless_unitless` and the discard
of `dynamic_product::simplify` test the dynamic type of the term (a
`dynamic_cast` to the class `unitless`), not value equality with the
dimensionless unit: a term is dropped exactly when its dynamic type is
`unitless`, and a simplified product contains no term of that type, while
a term merely value-equal to dimensionless (such as radian) is kept. -/
theorem c2_amended_drop_by_type :
    (∀ (l : DTerms) (t : DUnit),
      (isUnitlessClass t = true → pushBackUnlessUnitless l t = l) ∧
      (isUnitlessClass t = false → pushBackUnlessUnitless l t = dappend l t)) ∧
    (∀ ts : DTerms, noUnitlessClassTerms (dsimpTerms ts) = true) := by
  constructor
  · intro l t
    constructor
    · intro h
      unfold pushBackUnlessUnitless
      rw [h]
      rfl
    · intro h
      unfold pushBackUnlessUnitless
      rw [h]
      rfl
  · exact noUnitless_dsimpTerms

/-- C2 witness: instantiating the amended drop rule at the unitless term
and at radian. -/
theorem c2_witness :
    pushBackUnlessUnitless DTerms.nil unitlessD = DTerms.nil ∧
    pushBackUnlessUnitless DTerms.nil radianD
      = dappend DTerms.nil radianD := by
  constructor
  · exact (c2_amended_drop_by_type.1 DTerms.nil unitlessD).1 rfl
  · exact (c2_amended_drop_by_type.1 DTerms.nil radianD).2 rfl

/-- C1 counterexample: the dynamic conversion constructor silently
succeeds on a pair with unequal dimensions (meter to second), and on a
pair where exactly one side is absolute (degree Celsius to kelvin),
instead of signalling a run-time error. -/
theorem c1_counterexample :
    dDimension meterD ≠ dDimension secondD ∧
    (dconversion meterD secondD).isSome = true ∧
    (dOrigin celsiusD).isSome ≠ (dOrigin kelvinD).isSome ∧
    (dconversion celsiusD kelvinD).isSome = true := by
  refine ⟨?_, rfl, ?_, rfl⟩
  · intro h
    cases h
  · intro h
    cases h

/-- C1 amended: the dynamic-path conversion constructor performs no
run-time validation at all: for every pair of units whose magnitude
queries produce values, construction succeeds and computes the
multiplier and offset from the magnitudes and origins, regardless of any
dimension or absolute/relative mismatch. -/
theorem c1_amended_conversion_unchecked (u v : DUnit) (a b : rational)
    (hu : dMagnitude u = some a) (hv : dMagnitude v = some b) :
    dconversion u v = some (convMk a (dOrigin u) b (dOrigin v)) := by
  unfold dconversion
  rw [hu, hv]

/-- C1 witness: the amended statement applied to the dimension-mismatched
pair meter, second. -/
theorem c1_witness :
    dconversion meterD secondD
      = some (convMk (rmk1 1) none (rmk1 1) none) :=
  c1_amended_conversion_unchecked meterD secondD (rmk1 1) (rmk1 1) rfl rfl

/-- C5: for quantities over an identical absolute static unit,
subtraction is defined and yields the difference of the values at the
relative counterpart of the unit (same dimension and magnitude, origin
cleared), while addition is not defined for absolute units. -/
theorem c5_absolute_subtraction (u : SUnit) (a b : ℚ)
    (h : isAbsoluteS u = true) :
    qsub u a b = some (makeRelative u, a - b) ∧
    sDimension (makeRelative u) = sDimension u ∧
    sMagnitude (makeRelative u) = sMagnitude u ∧
    sOrigin (makeRelative u) = none ∧
    qadd u a b = none := by
  refine ⟨?_, rfl, rfl, rfl, ?_⟩
  · unfold qsub
    rw [h]
    rfl
  · unfold qadd
    rw [h]
    rfl

/-- C5 witness: subtraction of two degree-Celsius quantities. -/
theorem c5_witness :
    qsub celsiusS 5 3 = some (makeRelative celsiusS, 5 - 3) ∧
    sDimension (makeRelative celsiusS) = sDimension celsiusS ∧
    sMagnitude (makeRelative celsiusS) = sMagnitude celsiusS ∧
    sOrigin (makeRelative celsiusS) = none ∧
    qadd celsiusS 5 3 = none :=
  c5_absolute_subtraction celsiusS 5 3 rfl

/-! ## Claim C8: the rational invariant -/

theorem rinv_den_ne_zero {b : rational} (hbn : b.num ≠ 0) : (rinv b).den ≠ 0 := by
  have := rmk_den_pos b.den b.num hbn
  unfold rinv
  omega

theorem reduced_rmul {a b : rational} (ha : a.den ≠ 0) (hb : b.den ≠ 0) :
    reduced (rmul a b) :=
  rmk_reduced _ _ (mul_ne_zero ha hb)

theorem reduced_rdiv {a b : rational} (ha : a.den ≠ 0) (hbn : b.num ≠ 0) :
    reduced (rdiv a b) :=
  rmk_reduced _ _ (mul_ne_zero ha (rinv_den_ne_zero hbn))

theorem reduced_rpowAux {b : rational} (hb : b.den ≠ 0) :
    ∀ n : Nat, reduced (rpowAux b n)
  | 0 => goodr_one.1
  | n + 1 =>
    reduced_rmul (reduced_den_ne_zero (reduced_rpowAux hb n)) hb

theorem reduced_rpowDivAux {b : rational} (hbn : b.num ≠ 0) :
    ∀ n : Nat, reduced (rpowDivAux b n)
  | 0 => goodr_one.1
  | n + 1 =>
    reduced_rdiv (reduced_den_ne_zero (reduced_rpowDivAux hbn n)) hbn

theorem reduced_rpow {b : rational} (e : Int)
    (h : 0 ≤ e ∨ b.num ≠ 0) (hb : b.den ≠ 0) : reduced (rpow b e) := by
  unfold rpow
  by_cases he : 0 ≤ e
  · rw [if_pos he]
    exact reduced_rpowAux hb _
  · rw [if_neg he]
    rcases h with h | h
    · omega
    · exact reduced_rpowDivAux h _

/-- C8: constructing a rational from a pair with nonzero denominator
yields a reduced representation with positive denominator and coprime
absolute numerator and denominator, and the invariant is preserved by
inverse of a nonzero rational, by multiplication, by division by a
nonzero rational, and by integer pow (whose precondition for a negative
exponent is a nonzero base). -/
theorem c8_rational_invariant :
    (∀ n d : Int, d ≠ 0 → reduced (rmk n d)) ∧
    (∀ a : rational, a.num ≠ 0 → reduced (rinv a)) ∧
    (∀ a b : rational, reduced a → reduced b → reduced (rmul a b)) ∧
    (∀ a b : rational, reduced a → reduced b → b.num ≠ 0 → reduced (rdiv a b)) ∧
    (∀ (b : rational) (e : Int), reduced b → (0 ≤ e ∨ b.num ≠ 0) → reduced (rpow b e)) := by
  refine ⟨rmk_reduced, ?_, ?_, ?_, ?_⟩
  · intro a ha
    exact rmk_reduced _ _ ha
  · intro a b ha hb
    exact reduced_rmul (reduced_den_ne_zero ha) (reduced_den_ne_zero hb)
  · intro a b ha _hb hbn
    exact reduced_rdiv (reduced_den_ne_zero ha) hbn
  · intro b e hb he
    exact reduced_rpow e he (reduced_den_ne_zero hb)

/-- C8 witness: the invariant at concrete inputs, including a negative
denominator, an inverse, a product, a quotient and a negative power. -/
theorem c8_witness :
    reduced (rmk 6 (-4)) ∧
    reduced (rinv (rmk 6 (-4))) ∧
    reduced (rmul (rmk 6 (-4)) (rmk 10 15)) ∧
    reduced (rdiv (rmk 6 (-4)) (rmk 10 15)) ∧
    reduced (rpow (rmk 6 (-4)) (-3)) := by
  refine ⟨?_, ?_, ?_, ?_, ?_⟩
  · exact c8_rational_invariant.1 6 (-4) (by decide)
  · exact c8_rational_invariant.2.1 (rmk 6 (-4)) (by decide)
  · exact c8_rational_invariant.2.2.1 (rmk 6 (-4)) (rmk 10 15)
      (c8_rational_invariant.1 6 (-4) (by decide))
      (c8_rational_invariant.1 10 15 (by decide))
  · exact c8_rational_invariant.2.2.2.1 (rmk 6 (-4)) (rmk 10 15)
      (c8_rational_invariant.1 6 (-4) (by decide))
      (c8_rational_invariant.1 10 15 (by decide)) (by decide)
  · exact c8_rational_invariant.2.2.2.2 (rmk 6 (-4)) (-3)
      (c8_rational_invariant.1 6 (-4) (by decide)) (Or.inr (by decide))

/-! ## Claim C4: the conversion formulas -/

/-- C4: for units of equal dimension and matching absoluteness whose
magnitudes are reduced and nonzero, the conversion multiplier is the
exact rational quotient of the source magnitude by the target magnitude
(converted to the payload type), the offset is the converted source
origin over the target magnitude (zero if absent) minus the converted
target origin over the target magnitude (zero if absent), and applying
the conversion maps old to old * multiplier + offset. -/
theorem c4_conversion_formula (u v : DUnit) (a b : rational)
    (hu : dMagnitude u = some a) (hv : dMagnitude v = some b)
    (ha : reduced a) (hb : goodr b)
    (hou : ∀ x, dOrigin u = some x → reduced x)
    (hov : ∀ x, dOrigin v = some x → reduced x)
    (_hdim : dDimension u = dDimension v)
    (_habs : (dOrigin u).isSome = (dOrigin v).isSome) :
    ∃ c, dconversion u v = some c ∧
      c.multiplier = toQ a / toQ b ∧
      c.offset = (match dOrigin u with
                  | some o => toQ o / toQ b
                  | none => 0)
               - (match dOrigin v with
                  | some o => toQ o / toQ b
                  | none => 0) ∧
      ∀ old : ℚ, convApply c old = old * c.multiplier + c.offset := by
  refine ⟨convMk a (dOrigin u) b (dOrigin v), ?_, ?_, ?_, ?_⟩
  · unfold dconversion
    rw [hu, hv]
  · show toQ (rdiv a b) = toQ a / toQ b
    exact toQ_rdiv (reduced_den_ne_zero ha) hb.2
  · show ((0 : ℚ) + (match dOrigin u with
        | some o => toQ (rdiv o b)
        | none => (0 : ℚ)))
      - (match dOrigin v with
        | some o => toQ (rdiv o b)
        | none => (0 : ℚ)) = _
    rw [zero_add]
    congr 1
    · cases hx : dOrigin u with
      | none => rfl
      | some x =>
        exact toQ_rdiv (reduced_den_ne_zero (hou x hx)) hb.2
    · cases hx : dOrigin v with
      | none => rfl
      | some x =>
        exact toQ_rdiv (reduced_den_ne_zero (hov x hx)) hb.2
  · intro old
    rfl

/-- C4 witness: the conversion from inch to meter has multiplier 127/5000
and offset 0. -/
theorem c4_witness :
    ∃ c, dconversion inchD meterD = some c ∧
      c.multiplier = toQ (rmk 254 10000) / toQ (rmk1 1) ∧
      c.offset = (match dOrigin inchD with
                  | some o => toQ o / toQ (rmk1 1)
                  | none => (0 : ℚ))
               - (match dOrigin meterD with
                  | some o => toQ o / toQ (rmk1 1)
                  | none => (0 : ℚ)) ∧
      ∀ old : ℚ, convApply c old = old * c.multiplier + c.offset :=
  c4_conversion_formula inchD meterD (rmk 254 10000) (rmk1 1) rfl rfl
    (by decide) (by decide)
    (fun x h => by cases h) (fun x h => by cases h)
    rfl rfl

theorem drootList_eq (e : Int) : ∀ (ts : DTerms) (acc : DTerms),
    drootList ts e acc
      = (rootEach e ts.toList).map (fun rs => rs.foldl mulWith acc)
  | .nil, acc => rfl
  | .cons t ts, acc => by
    rw [drootList]
    cases h : droot t e with
    | none =>
      show none = (rootEach e (t :: ts.toList)).map _
      rw [rootEach, h]
      cases rootEach e ts.toList <;> rfl
    | some r =>
      show drootList ts e (mulWith acc r) = (rootEach e (t :: ts.toList)).map _
      rw [drootList_eq e ts (mulWith acc r), rootEach, h]
      cases hm : rootEach e ts.toList with
      | none => rfl
      | some rs => simp [List.foldl_cons]

/-- C7: the dynamic root operation signals an error on an atomic/named
node; on a power node it errs exactly when the stored exponent is not
evenly divisible by the root exponent and otherwise returns the
simplified power at the divided exponent; and on a product node it
distributes the root over every term (propagating any error), folds the
rooted terms into a product, and returns its simplified form. -/
theorem c7_root_cases :
    (∀ (d : dimension) (m : rational) (o : Option rational) (u : Bool) (e : Int),
        droot (DUnit.named d m o u) e = none) ∧
    (∀ (b : DUnit) (x e : Int), ¬ (e ∣ x) → droot (DUnit.exp b x) e = none) ∧
    (∀ (b : DUnit) (x e : Int), e ∣ x →
        droot (DUnit.exp b x) e = some (dsimplify (DUnit.exp b (Int.tdiv x e)))) ∧
    (∀ (ts : DTerms) (e : Int),
        droot (DUnit.prod ts) e
          = (rootEach e ts.toList).map
              (fun rs => dsimplify (DUnit.prod (rs.foldl mulWith DTerms.nil)))) := by
  refine ⟨fun _ _ _ _ _ => rfl, ?_, ?_, ?_⟩
  · intro b x e h
    have hm : Int.tmod x e ≠ 0 := by
      intro h0
      exact h (Int.dvd_iff_tmod_eq_zero.mpr h0)
    show (if Int.tmod x e = 0
        then some (dsimplify (DUnit.exp b (Int.tdiv x e))) else none) = none
    rw [if_neg hm]
  · intro b x e h
    have hm : Int.tmod x e = 0 := Int.dvd_iff_tmod_eq_zero.mp h
    show (if Int.tmod x e = 0
        then some (dsimplify (DUnit.exp b (Int.tdiv x e))) else none)
      = some (dsimplify (DUnit.exp b (Int.tdiv x e)))
    rw [if_pos hm]
  · intro ts e
    show (match drootList ts e DTerms.nil with
        | some l => some (dsimplify (DUnit.prod l))
        | none => none) = _
    rw [drootList_eq e ts DTerms.nil]
    cases rootEach e ts.toList with
    | none => rfl
    | some rs => rfl

/-- C7 witness: the square root of meter^3 errs (3 is not divisible by
2), and the square root of meter^4 is the simplified meter^2. -/
theorem c7_witness :
    droot (DUnit.exp meterD 3) 2 = none ∧
    droot (DUnit.exp meterD 4) 2 = some (dsimplify (DUnit.exp meterD (Int.tdiv 4 2))) :=
  ⟨c7_root_cases.2.1 meterD 3 2 (by decide),
   c7_root_cases.2.2.1 meterD 4 2 (by decide)⟩

theorem wfD_named {d : dimension} {m : rational} {o : Option rational} {u : Bool}
    (h : wfD (.named d m o u) = true) :
    o = none ∧ goodr m ∧ (u = true → d = dimensionless ∧ m = rmk1 1) := by
  rw [wfD] at h
  cases u with
  | false =>
    simp only [Bool.not_false, Bool.true_or, Bool.and_true, Bool.and_eq_true,
      decide_eq_true_eq] at h
    exact ⟨h.1, h.2, fun hc => by cases hc⟩
  | true =>
    simp only [Bool.not_true, Bool.false_or, Bool.and_eq_true, decide_eq_true_eq] at h
    exact ⟨h.1.1, h.1.2, fun _ => ⟨h.2.1, h.2.2⟩⟩

theorem wfD_exp {b : DUnit} {e : Int} : wfD (.exp b e) = wfD b := rfl

theorem wfD_prod_cons {t : DUnit} {ts : DTerms}
    (h : wfD (.prod (.cons t ts)) = true) : wfD t = true ∧ wfDL ts = true := by
  rw [wfD] at h
  simp_all

theorem wfDL_cons {t : DUnit} {ts : DTerms}
    (h : wfDL (.cons t ts) = true) : wfD t = true ∧ wfDL ts = true := by
  rw [wfDL] at h
  simp_all

theorem dOrigin_none : ∀ u : DUnit, wfD u = true → dOrigin u = none
  | .named _ _ _ _, h => (wfD_named h).1
  | .exp _ _, _ => rfl
  | .prod _, _ => rfl

mutual
theorem dDim_eval : ∀ u : DUnit, wfD u = true → dDimension u = some (vdim u)
  | .named _ _ _ _, _ => rfl
  | .exp b e, h => by
    have hb := dDim_eval b (wfD_exp ▸ h)
    show (match dDimension b with
        | some x => some (dim_pow x e)
        | none => none) = some (vdim (DUnit.exp b e))
    rw [hb]
    rfl
  | .prod (.cons t ts), h => by
    have h2 := wfD_prod_cons h
    have ht := dDim_eval t h2.1
    show dDimFold (dDimension t) ts = some (vdim (DUnit.prod (DTerms.cons t ts)))
    rw [ht, dDimFold_eval ts h2.2 (vdim t)]
    rfl
theorem dDimFold_eval : ∀ ts : DTerms, wfDL ts = true →
    ∀ a : dimension, dDimFold (some a) ts = some (dim_mul a (vdimL ts))
  | .nil, _, a => by
    show some a = some (dim_mul a dimensionless)
    rw [dim_mul_one]
  | .cons t ts, h, a => by
    have h2 := wfDL_cons h
    have ht := dDim_eval t h2.1
    show dDimFold (match some a, dDimension t with
        | some x, some y => some (dim_mul x y)
        | _, _ => none) ts = some (dim_mul a (vdimL (DTerms.cons t ts)))
    rw [ht]
    show dDimFold (some (dim_mul a (vdim t))) ts = _
    rw [dDimFold_eval ts h2.2 (dim_mul a (vdim t))]
    show some (dim_mul (dim_mul a (vdim t)) (vdimL ts))
      = some (dim_mul a (dim_mul (vdim t) (vdimL ts)))
    rw [dim_mul_assoc]
end

mutual
theorem dMag_eval : ∀ u : DUnit, wfD u = true →
    ∃ r, dMagnitude u = some r ∧ goodr r ∧ toQ r = vmag u
  | .named _ m _ _, h => ⟨m, rfl, (wfD_named h).2.1, rfl⟩
  | .exp b e, h => by
    obtain ⟨r, hr, hg, hv⟩ := dMag_eval b (wfD_exp ▸ h)
    refine ⟨rpow r e, ?_, goodr_rpow hg e, ?_⟩
    · show (match dMagnitude b with
        | some x => some (rpow x e)
        | none => none) = some (rpow r e)
      rw [hr]
    · rw [toQ_rpow hg, hv]
      rfl
  | .prod (.cons t ts), h => by
    have h2 := wfD_prod_cons h
    obtain ⟨r, hr, hg, hv⟩ := dMag_eval t h2.1
    obtain ⟨r2, hr2, hg2, hv2⟩ := dMagFold_eval ts h2.2 r hg
    refine ⟨r2, ?_, hg2, ?_⟩
    · show dMagFold (dMagnitude t) ts = some r2
      rw [hr]
      exact hr2
    · rw [hv2, hv]
      rfl
theorem dMagFold_eval : ∀ ts : DTerms, wfDL ts = true →
    ∀ a : rational, goodr a →
    ∃ r, dMagFold (some a) ts = some r ∧ goodr r ∧ toQ r = toQ a * vmagL ts
  | .nil, _, a, hga => by
    refine ⟨a, rfl, hga, ?_⟩
    show toQ a = toQ a * (1 : ℚ)
    rw [mul_one]
  | .cons t ts, h, a, hga => by
    have h2 := wfDL_cons h
    obtain ⟨r, hr, hg, hv⟩ := dMag_eval t h2.1
    obtain ⟨r2, hr2, hg2, hv2⟩ := dMagFold_eval ts h2.2 (rmul a r) (goodr_rmul hga hg)
    refine ⟨r2, ?_, hg2, ?_⟩
    · show dMagFold (match some a, dMagnitude t with
        | some x, some y => some (rmul x y)
        | _, _ => none) ts = some r2
      rw [hr]
      exact hr2
    · rw [hv2, toQ_rmul (reduced_den_ne_zero hga.1) (reduced_den_ne_zero hg.1), hv]
      show toQ a * vmag t * vmagL ts = toQ a * (vmag t * vmagL ts)
      ring
end

theorem vmag_ne_zero (u : DUnit) (h : wfD u = true) : vmag u ≠ 0 := by
  obtain ⟨r, _, hg, hv⟩ := dMag_eval u h
  rw [← hv]
  exact toQ_ne_zero hg

/-- A well-formed node of dynamic type `unitless` has the data of the
class `unitless`. -/
theorem unitless_class_data : ∀ u : DUnit, wfD u = true → isUnitlessClass u = true →
    vdim u = dimensionless ∧ vmag u = 1
  | .named d m o uf, h, hu => by
    have h2 := (wfD_named h).2.2 hu
    constructor
    · show d = dimensionless
      exact h2.1
    · show toQ m = 1
      rw [h2.2, toQ_one]
  | .exp _ _, _, hu => by cases hu
  | .prod _, _, hu => by cases hu

theorem wfD_unitlessD : wfD unitlessD = true := by decide

/-! ## Preservation of the unit value by dynamic simplify -/

theorem wfDL_mk {t : DUnit} {ts : DTerms}
    (h1 : wfD t = true) (h2 : wfDL ts = true) : wfDL (DTerms.cons t ts) = true := by
  show (wfD t && wfDL ts) = true
  rw [h1, h2]
  rfl

theorem wfD_prod_mk {t : DUnit} {ts : DTerms}
    (h : wfDL (DTerms.cons t ts) = true) : wfD (DUnit.prod (DTerms.cons t ts)) = true := by
  show (wfD t && wfDL ts) = true
  exact h

mutual
theorem dsimp_wf : ∀ u : DUnit, wfD u = true → wfD (dsimplify u) = true
  | .named d m o uf, h => h
  | .exp b e, h => by
    show wfD (if e = 0 then unitlessD else if e = 1 then b else .exp b e) = true
    by_cases h0 : e = 0
    · rw [if_pos h0]
      exact wfD_unitlessD
    · rw [if_neg h0]
      by_cases h1 : e = 1
      · rw [if_pos h1]
        exact wfD_exp ▸ h
      · rw [if_neg h1]
        exact h
  | .prod .nil, h => absurd h (by decide)
  | .prod (.cons t ts), h => by
    have h2 := wfD_prod_cons h
    have hts : wfDL (dsimpTerms (DTerms.cons t ts)) = true :=
      dsimpTerms_wf _ (wfDL_mk h2.1 h2.2)
    show wfD (match dsimpTerms (DTerms.cons t ts) with
      | .nil => unitlessD
      | .cons u .nil => u
      | l => .prod l) = true
    cases hl : dsimpTerms (DTerms.cons t ts) with
    | nil => exact wfD_unitlessD
    | cons u us =>
      rw [hl] at hts
      cases us with
      | nil => exact (wfDL_cons hts).1
      | cons v vs => exact wfD_prod_mk hts
theorem dsimpTerms_wf : ∀ ts : DTerms, wfDL ts = true → wfDL (dsimpTerms ts) = true
  | .nil, h => h
  | .cons t ts, h => by
    have h2 := wfDL_cons h
    show wfDL (pushFrontSimp (dsimplify t) (dsimpTerms ts)) = true
    unfold pushFrontSimp
    by_cases hc : isUnitlessClass (dsimplify t) = true
    · rw [if_pos hc]
      exact dsimpTerms_wf ts h2.2
    · rw [if_neg hc]
      exact wfDL_mk (dsimp_wf t h2.1) (dsimpTerms_wf ts h2.2)
end

mutual
theorem dsimp_vdim : ∀ u : DUnit, wfD u = true → vdim (dsimplify u) = vdim u
  | .named _ _ _ _, _ => rfl
  | .exp b e, h => by
    show vdim (if e = 0 then unitlessD else if e = 1 then b else .exp b e)
      = vdim (DUnit.exp b e)
    by_cases h0 : e = 0
    · rw [if_pos h0, h0]
      show dimensionless = dim_pow (vdim b) 0
      rw [dim_pow_zero]
    · rw [if_neg h0]
      by_cases h1 : e = 1
      · rw [if_pos h1, h1]
        show vdim b = dim_pow (vdim b) 1
        rw [dim_pow_one]
      · rw [if_neg h1]
  | .prod .nil, h => absurd h (by decide)
  | .prod (.cons t ts), h => by
    have h2 := wfD_prod_cons h
    have hterm := dsimpTerms_vdim (DTerms.cons t ts) (wfDL_mk h2.1 h2.2)
    show vdim (match dsimpTerms (DTerms.cons t ts) with
      | .nil => unitlessD
      | .cons u .nil => u
      | l => .prod l) = vdimL (DTerms.cons t ts)
    cases hl : dsimpTerms (DTerms.cons t ts) with
    | nil =>
      rw [hl] at hterm
      show dimensionless = vdimL (DTerms.cons t ts)
      exact hterm
    | cons u us =>
      rw [hl] at hterm
      cases us with
      | nil =>
        show vdim u = vdimL (DTerms.cons t ts)
        rw [← hterm]
        show vdim u = dim_mul (vdim u) dimensionless
        rw [dim_mul_one]
      | cons v vs => exact hterm
theorem dsimpTerms_vdim : ∀ ts : DTerms, wfDL ts = true → vdimL (dsimpTerms ts) = vdimL ts
  | .nil, _ => rfl
  | .cons t ts, h => by
    have h2 := wfDL_cons h
    show vdimL (pushFrontSimp (dsimplify t) (dsimpTerms ts)) = vdimL (DTerms.cons t ts)
    unfold pushFrontSimp
    by_cases hc : isUnitlessClass (dsimplify t) = true
    · rw [if_pos hc]
      have hd := unitless_class_data (dsimplify t) (dsimp_wf t h2.1) hc
      have hv := dsimp_vdim t h2.1
      rw [dsimpTerms_vdim ts h2.2]
      show vdimL ts = dim_mul (vdim t) (vdimL ts)
      rw [← hv, hd.1, dim_one_mul]
    · rw [if_neg hc]
      show dim_mul (vdim (dsimplify t)) (vdimL (dsimpTerms ts))
        = dim_mul (vdim t) (vdimL ts)
      rw [dsimp_vdim t h2.1, dsimpTerms_vdim ts h2.2]
end

mutual
theorem dsimp_vmag : ∀ u : DUnit, wfD u = true → vmag (dsimplify u) = vmag u
  | .named _ _ _ _, _ => rfl
  | .exp b e, h => by
    show vmag (if e = 0 then unitlessD else if e = 1 then b else .exp b e)
      = vmag (DUnit.exp b e)
    by_cases h0 : e = 0
    · rw [if_pos h0, h0]
      show vmag unitlessD = vmag b ^ (0 : Int)
      rw [zpow_zero]
      show toQ (rmk1 1) = 1
      rw [toQ_one]
    · rw [if_neg h0]
      by_cases h1 : e = 1
      · rw [if_pos h1, h1]
        show vmag b = vmag b ^ (1 : Int)
        rw [zpow_one]
      · rw [if_neg h1]
  | .prod .nil, h => absurd h (by decide)
  | .prod (.cons t ts), h => by
    have h2 := wfD_prod_cons h
    have hterm := dsimpTerms_vmag (DTerms.cons t ts) (wfDL_mk h2.1 h2.2)
    show vmag (match dsimpTerms (DTerms.cons t ts) with
      | .nil => unitlessD
      | .cons u .nil => u
      | l => .prod l) = vmagL (DTerms.cons t ts)
    cases hl : dsimpTerms (DTerms.cons t ts) with
    | nil =>
      rw [hl] at hterm
      show vmag unitlessD = vmagL (DTerms.cons t ts)
      rw [← hterm]
      show toQ (rmk1 1) = (1 : ℚ)
      rw [toQ_one]
    | cons u us =>
      rw [hl] at hterm
      cases us with
      | nil =>
        show vmag u = vmagL (DTerms.cons t ts)
        rw [← hterm]
        show vmag u = vmag u * 1
        rw [mul_one]
      | cons v vs => exact hterm
theorem dsimpTerms_vmag : ∀ ts : DTerms, wfDL ts = true → vmagL (dsimpTerms ts) = vmagL ts
  | .nil, _ => rfl
  | .cons t ts, h => by
    have h2 := wfDL_cons h
    show vmagL (pushFrontSimp (dsimplify t) (dsimpTerms ts)) = vmagL (DTerms.cons t ts)
    unfold pushFrontSimp
    by_cases hc : isUnitlessClass (dsimplify t) = true
    · rw [if_pos hc]
      have hd := unitless_class_data (dsimplify t) (dsimp_wf t h2.1) hc
      have hv := dsimp_vmag t h2.1
      rw [dsimpTerms_vmag ts h2.2]
      show vmagL ts = vmag t * vmagL ts
      rw [← hv, hd.2, one_mul]
    · rw [if_neg hc]
      show vmag (dsimplify t) * vmagL (dsimpTerms ts) = vmag t * vmagL ts
      rw [dsimp_vmag t h2.1, dsimpTerms_vmag ts h2.2]
end

/-! ## Value of the product fold operations -/

theorem dim_mul_right_comm (a b c : dimension) :
    dim_mul (dim_mul a b) c = dim_mul (dim_mul a c) b := by
  cases a; cases b; cases c
  simp only [dim_mul, dimension.mk.injEq]
  omega

theorem dim_mul_pow_neg (a d : dimension) (e : Int) :
    dim_mul a (dim_pow d (-e)) = dim_div a (dim_pow d e) := by
  cases a; cases d
  simp only [dim_mul, dim_pow, dim_div, dimension.mk.injEq]
  refine ⟨?_, ?_, ?_, ?_, ?_, ?_, ?_⟩ <;> ring

theorem dim_div_div (a b c : dimension) :
    dim_div (dim_div a b) c = dim_div a (dim_mul b c) := by
  cases a; cases b; cases c
  simp only [dim_div, dim_mul, dimension.mk.injEq]
  omega

/-- Bases that compare equal under the dynamic unit-equality test have the
same dimension and magnitude value. -/
theorem unitEqD_values {b1 b : DUnit} (h1 : wfD b1 = true) (h2 : wfD b = true)
    (hq : unitEqD b1 b) : vdim b1 = vdim b ∧ vmag b1 = vmag b := by
  constructor
  · have e1 := dDim_eval b1 h1
    have e2 := dDim_eval b h2
    have := hq.1
    rw [e1, e2] at this
    exact Option.some.inj this
  · obtain ⟨r1, hr1, _, hv1⟩ := dMag_eval b1 h1
    obtain ⟨r2, hr2, _, hv2⟩ := dMag_eval b h2
    have := hq.2.1
    rw [hr1, hr2] at this
    rw [← hv1, ← hv2, Option.some.inj this]

theorem mergeExp_wf : ∀ (l : DTerms) (b : DUnit) (e : Int),
    wfDL l = true → wfD b = true → wfDL (mergeExp l b e) = true
  | .nil, b, e, _, hb => wfDL_mk hb rfl
  | .cons (.exp b1 e1) ts, b, e, hl, hb => by
    have h2 := wfDL_cons hl
    show wfDL (if unitEqD b1 b then DTerms.cons (.exp b (e1 + e)) ts
      else DTerms.cons (.exp b1 e1) (mergeExp ts b e)) = true
    by_cases hq : unitEqD b1 b
    · rw [if_pos hq]
      exact wfDL_mk hb h2.2
    · rw [if_neg hq]
      exact wfDL_mk h2.1 (mergeExp_wf ts b e h2.2 hb)
  | .cons (.named d m o uf) ts, b, e, hl, hb => by
    have h2 := wfDL_cons hl
    show wfDL (DTerms.cons (.named d m o uf) (mergeExp ts b e)) = true
    exact wfDL_mk h2.1 (mergeExp_wf ts b e h2.2 hb)
  | .cons (.prod ps) ts, b, e, hl, hb => by
    have h2 := wfDL_cons hl
    show wfDL (DTerms.cons (.prod ps) (mergeExp ts b e)) = true
    exact wfDL_mk h2.1 (mergeExp_wf ts b e h2.2 hb)

theorem mergeExp_vdim : ∀ (l : DTerms) (b : DUnit) (e : Int),
    wfDL l = true → wfD b = true →
    vdimL (mergeExp l b e) = dim_mul (vdimL l) (dim_pow (vdim b) e)
  | .nil, b, e, _, hb => by
    show dim_mul (dim_pow (vdim b) e) dimensionless
      = dim_mul dimensionless (dim_pow (vdim b) e)
    rw [dim_mul_one, dim_one_mul]
  | .cons (.exp b1 e1) ts, b, e, hl, hb => by
    have h2 := wfDL_cons hl
    show vdimL (if unitEqD b1 b then DTerms.cons (.exp b (e1 + e)) ts
      else DTerms.cons (.exp b1 e1) (mergeExp ts b e))
      = dim_mul (dim_mul (dim_pow (vdim b1) e1) (vdimL ts)) (dim_pow (vdim b) e)
    by_cases hq : unitEqD b1 b
    · rw [if_pos hq]
      have hbb := (unitEqD_values (wfD_exp ▸ h2.1) hb hq).1
      show dim_mul (dim_pow (vdim b) (e1 + e)) (vdimL ts) = _
      rw [hbb, dim_pow_add, dim_mul_right_comm]
    · rw [if_neg hq]
      show dim_mul (dim_pow (vdim b1) e1) (vdimL (mergeExp ts b e)) = _
      rw [mergeExp_vdim ts b e h2.2 hb, ← dim_mul_assoc]
  | .cons (.named d m o uf) ts, b, e, hl, hb => by
    have h2 := wfDL_cons hl
    show dim_mul d (vdimL (mergeExp ts b e))
      = dim_mul (dim_mul d (vdimL ts)) (dim_pow (vdim b) e)
    rw [mergeExp_vdim ts b e h2.2 hb, ← dim_mul_assoc]
  | .cons (.prod ps) ts, b, e, hl, hb => by
    have h2 := wfDL_cons hl
    show dim_mul (vdimL ps) (vdimL (mergeExp ts b e))
      = dim_mul (dim_mul (vdimL ps) (vdimL ts)) (dim_pow (vdim b) e)
    rw [mergeExp_vdim ts b e h2.2 hb, ← dim_mul_assoc]

theorem mergeExp_vmag : ∀ (l : DTerms) (b : DUnit) (e : Int),
    wfDL l = true → wfD b = true →
    vmagL (mergeExp l b e) = vmagL l * vmag b ^ e
  | .nil, b, e, _, hb => by
    show vmag b ^ e * 1 = 1 * vmag b ^ e
    ring
  | .cons (.exp b1 e1) ts, b, e, hl, hb => by
    have h2 := wfDL_cons hl
    show vmagL (if unitEqD b1 b then DTerms.cons (.exp b (e1 + e)) ts
      else DTerms.cons (.exp b1 e1) (mergeExp ts b e))
      = vmag b1 ^ e1 * vmagL ts * vmag b ^ e
    by_cases hq : unitEqD b1 b
    · rw [if_pos hq]
      have hbb := (unitEqD_values (wfD_exp ▸ h2.1) hb hq).2
      show vmag b ^ (e1 + e) * vmagL ts = _
      rw [hbb, zpow_add₀ (vmag_ne_zero b hb)]
      ring
    · rw [if_neg hq]
      show vmag b1 ^ e1 * vmagL (mergeExp ts b e) = _
      rw [mergeExp_vmag ts b e h2.2 hb]
      ring
  | .cons (.named d m o uf) ts, b, e, hl, hb => by
    have h2 := wfDL_cons hl
    show toQ m * vmagL (mergeExp ts b e) = toQ m * vmagL ts * vmag b ^ e
    rw [mergeExp_vmag ts b e h2.2 hb]
    ring
  | .cons (.prod ps) ts, b, e, hl, hb => by
    have h2 := wfDL_cons hl
    show vmagL ps * vmagL (mergeExp ts b e) = vmagL ps * vmagL ts * vmag b ^ e
    rw [mergeExp_vmag ts b e h2.2 hb]
    ring

mutual
theorem mulWith_wf : ∀ (X : DUnit), wfD X = true →
    ∀ l : DTerms, wfDL l = true → wfDL (mulWith l X) = true
  | .named d m o uf, hX, l, hl => mergeExp_wf l (.named d m o uf) 1 hl hX
  | .exp b e, hX, l, hl => mergeExp_wf l b e hl (wfD_exp ▸ hX)
  | .prod .nil, hX, _, _ => absurd hX (by decide)
  | .prod (.cons t ts), hX, l, hl => by
    have h2 := wfD_prod_cons hX
    show wfDL (mulWithList l (DTerms.cons t ts)) = true
    exact mulWithList_wf (DTerms.cons t ts) (wfDL_mk h2.1 h2.2) l hl
theorem mulWithList_wf : ∀ ts : DTerms, wfDL ts = true →
    ∀ l : DTerms, wfDL l = true → wfDL (mulWithList l ts) = true
  | .nil, _, _, hl => hl
  | .cons t ts, h, l, hl => by
    have h2 := wfDL_cons h
    show wfDL (mulWithList (mulWith l t) ts) = true
    exact mulWithList_wf ts h2.2 (mulWith l t) (mulWith_wf t h2.1 l hl)
end

mutual
theorem mulWith_vdim : ∀ (X : DUnit), wfD X = true →
    ∀ l : DTerms, wfDL l = true →
    vdimL (mulWith l X) = dim_mul (vdimL l) (vdim X)
  | .named d m o uf, hX, l, hl => by
    show vdimL (mergeExp l (.named d m o uf) 1) = dim_mul (vdimL l) d
    rw [mergeExp_vdim l (.named d m o uf) 1 hl hX]
    show dim_mul (vdimL l) (dim_pow d 1) = dim_mul (vdimL l) d
    rw [dim_pow_one]
  | .exp b e, hX, l, hl => by
    show vdimL (mergeExp l b e) = dim_mul (vdimL l) (dim_pow (vdim b) e)
    exact mergeExp_vdim l b e hl (wfD_exp ▸ hX)
  | .prod .nil, hX, _, _ => absurd hX (by decide)
  | .prod (.cons t ts), hX, l, hl => by
    have h2 := wfD_prod_cons hX
    show vdimL (mulWithList l (DTerms.cons t ts)) = dim_mul (vdimL l) (vdimL (DTerms.cons t ts))
    exact mulWithList_vdim (DTerms.cons t ts) (wfDL_mk h2.1 h2.2) l hl
theorem mulWithList_vdim : ∀ ts : DTerms, wfDL ts = true →
    ∀ l : DTerms, wfDL l = true →
    vdimL (mulWithList l ts) = dim_mul (vdimL l) (vdimL ts)
  | .nil, _, l, _ => by
    show vdimL l = dim_mul (vdimL l) dimensionless
    rw [dim_mul_one]
  | .cons t ts, h, l, hl => by
    have h2 := wfDL_cons h
    show vdimL (mulWithList (mulWith l t) ts) = dim_mul (vdimL l) (dim_mul (vdim t) (vdimL ts))
    rw [mulWithList_vdim ts h2.2 (mulWith l t) (mulWith_wf t h2.1 l hl),
      mulWith_vdim t h2.1 l hl, dim_mul_assoc]
end

mutual
theorem mulWith_vmag : ∀ (X : DUnit), wfD X = true →
    ∀ l : DTerms, wfDL l = true →
    vmagL (mulWith l X) = vmagL l * vmag X
  | .named d m o uf, hX, l, hl => by
    show vmagL (mergeExp l (.named d m o uf) 1) = vmagL l * toQ m
    rw [mergeExp_vmag l (.named d m o uf) 1 hl hX]
    show vmagL l * toQ m ^ (1 : Int) = vmagL l * toQ m
    rw [zpow_one]
  | .exp b e, hX, l, hl => by
    show vmagL (mergeExp l b e) = vmagL l * vmag b ^ e
    exact mergeExp_vmag l b e hl (wfD_exp ▸ hX)
  | .prod .nil, hX, _, _ => absurd hX (by decide)
  | .prod (.cons t ts), hX, l, hl => by
    have h2 := wfD_prod_cons hX
    show vmagL (mulWithList l (DTerms.cons t ts)) = vmagL l * vmagL (DTerms.cons t ts)
    exact mulWithList_vmag (DTerms.cons t ts) (wfDL_mk h2.1 h2.2) l hl
theorem mulWithList_vmag : ∀ ts : DTerms, wfDL ts = true →
    ∀ l : DTerms, wfDL l = true →
    vmagL (mulWithList l ts) = vmagL l * vmagL ts
  | .nil, _, l, _ => by
    show vmagL l = vmagL l * 1
    rw [mul_one]
  | .cons t ts, h, l, hl => by
    have h2 := wfDL_cons h
    show vmagL (mulWithList (mulWith l t) ts) = vmagL l * (vmag t * vmagL ts)
    rw [mulWithList_vmag ts h2.2 (mulWith l t) (mulWith_wf t h2.1 l hl),
      mulWith_vmag t h2.1 l hl]
    ring
end

mutual
theorem divWith_wf : ∀ (X : DUnit), wfD X = true →
    ∀ l : DTerms, wfDL l = true → wfDL (divWith l X) = true
  | .named d m o uf, hX, l, hl => mergeExp_wf l (.named d m o uf) (-1) hl hX
  | .exp b e, hX, l, hl => mergeExp_wf l b (-e) hl (wfD_exp ▸ hX)
  | .prod .nil, hX, _, _ => absurd hX (by decide)
  | .prod (.cons t ts), hX, l, hl => by
    have h2 := wfD_prod_cons hX
    show wfDL (divWithList l (DTerms.cons t ts)) = true
    exact divWithList_wf (DTerms.cons t ts) (wfDL_mk h2.1 h2.2) l hl
theorem divWithList_wf : ∀ ts : DTerms, wfDL ts = true →
    ∀ l : DTerms, wfDL l = true → wfDL (divWithList l ts) = true
  | .nil, _, _, hl => hl
  | .cons t ts, h, l, hl => by
    have h2 := wfDL_cons h
    show wfDL (divWithList (divWith l t) ts) = true
    exact divWithList_wf ts h2.2 (divWith l t) (divWith_wf t h2.1 l hl)
end

mutual
theorem divWith_vdim : ∀ (X : DUnit), wfD X = true →
    ∀ l : DTerms, wfDL l = true →
    vdimL (divWith l X) = dim_div (vdimL l) (vdim X)
  | .named d m o uf, hX, l, hl => by
    show vdimL (mergeExp l (.named d m o uf) (-1)) = dim_div (vdimL l) d
    rw [mergeExp_vdim l (.named d m o uf) (-1) hl hX]
    show dim_mul (vdimL l) (dim_pow d (-1)) = dim_div (vdimL l) d
    rw [dim_mul_pow_neg _ _ 1, dim_pow_one]
  | .exp b e, hX, l, hl => by
    show vdimL (mergeExp l b (-e)) = dim_div (vdimL l) (dim_pow (vdim b) e)
    rw [mergeExp_vdim l b (-e) hl (wfD_exp ▸ hX), dim_mul_pow_neg]
  | .prod .nil, hX, _, _ => absurd hX (by decide)
  | .prod (.cons t ts), hX, l, hl => by
    have h2 := wfD_prod_cons hX
    show vdimL (divWithList l (DTerms.cons t ts))
      = dim_div (vdimL l) (vdimL (DTerms.cons t ts))
    exact divWithList_vdim (DTerms.cons t ts) (wfDL_mk h2.1 h2.2) l hl
theorem divWithList_vdim : ∀ ts : DTerms, wfDL ts = true →
    ∀ l : DTerms, wfDL l = true →
    vdimL (divWithList l ts) = dim_div (vdimL l) (vdimL ts)
  | .nil, _, l, _ => by
    show vdimL l = dim_div (vdimL l) dimensionless
    cases vdimL l
    simp only [dim_div, dimensionless, dimension.mk.injEq]
    omega
  | .cons t ts, h, l, hl => by
    have h2 := wfDL_cons h
    show vdimL (divWithList (divWith l t) ts)
      = dim_div (vdimL l) (dim_mul (vdim t) (vdimL ts))
    rw [divWithList_vdim ts h2.2 (divWith l t) (divWith_wf t h2.1 l hl),
      divWith_vdim t h2.1 l hl, dim_div_div]
end

mutual
theorem divWith_vmag : ∀ (X : DUnit), wfD X = true →
    ∀ l : DTerms, wfDL l = true →
    vmagL (divWith l X) = vmagL l * (vmag X)⁻¹
  | .named d m o uf, hX, l, hl => by
    show vmagL (mergeExp l (.named d m o uf) (-1)) = vmagL l * (toQ m)⁻¹
    rw [mergeExp_vmag l (.named d m o uf) (-1) hl hX]
    show vmagL l * toQ m ^ (-1 : Int) = vmagL l * (toQ m)⁻¹
    rw [zpow_neg, zpow_one]
  | .exp b e, hX, l, hl => by
    show vmagL (mergeExp l b (-e)) = vmagL l * (vmag b ^ e)⁻¹
    rw [mergeExp_vmag l b (-e) hl (wfD_exp ▸ hX), zpow_neg]
  | .prod .nil, hX, _, _ => absurd hX (by decide)
  | .prod (.cons t ts), hX, l, hl => by
    have h2 := wfD_prod_cons hX
    show vmagL (divWithList l (DTerms.cons t ts))
      = vmagL l * (vmagL (DTerms.cons t ts))⁻¹
    exact divWithList_vmag (DTerms.cons t ts) (wfDL_mk h2.1 h2.2) l hl
theorem divWithList_vmag : ∀ ts : DTerms, wfDL ts = true →
    ∀ l : DTerms, wfDL l = true →
    vmagL (divWithList l ts) = vmagL l * (vmagL ts)⁻¹
  | .nil, _, l, _ => by
    show vmagL l = vmagL l * (1 : ℚ)⁻¹
    rw [inv_one, mul_one]
  | .cons t ts, h, l, hl => by
    have h2 := wfDL_cons h
    show vmagL (divWithList (divWith l t) ts) = vmagL l * (vmag t * vmagL ts)⁻¹
    rw [divWithList_vmag ts h2.2 (divWith l t) (divWith_wf t h2.1 l hl),
      divWith_vmag t h2.1 l hl, mul_inv]
    ring
end

theorem mergeExp_ne_nil : ∀ (l : DTerms) (b : DUnit) (e : Int),
    mergeExp l b e ≠ DTerms.nil
  | .nil, b, e => by
    show DTerms.cons (.exp b e) .nil ≠ DTerms.nil
    intro h
    cases h
  | .cons (.exp b1 e1) ts, b, e => by
    show (if unitEqD b1 b then DTerms.cons (.exp b (e1 + e)) ts
      else DTerms.cons (.exp b1 e1) (mergeExp ts b e)) ≠ DTerms.nil
    by_cases hq : unitEqD b1 b
    · rw [if_pos hq]
      intro h
      cases h
    · rw [if_neg hq]
      intro h
      cases h
  | .cons (.named d m o uf) ts, b, e => by
    intro h
    cases h
  | .cons (.prod ps) ts, b, e => by
    intro h
    cases h

mutual
theorem mulWith_ne_nil_of_ne : ∀ (X : DUnit) (l : DTerms),
    l ≠ DTerms.nil → mulWith l X ≠ DTerms.nil
  | .named d m o uf, l, _ => mergeExp_ne_nil l (.named d m o uf) 1
  | .exp b e, l, _ => mergeExp_ne_nil l b e
  | .prod ts, l, hne => mulWithList_ne_nil ts l hne
theorem mulWithList_ne_nil : ∀ (ts : DTerms) (l : DTerms),
    l ≠ DTerms.nil → mulWithList l ts ≠ DTerms.nil
  | .nil, _, hne => hne
  | .cons t ts, l, hne =>
    mulWithList_ne_nil ts (mulWith l t) (mulWith_ne_nil_of_ne t l hne)
end

theorem mulWith_ne_nil_of_wf : ∀ (X : DUnit), wfD X = true →
    ∀ l : DTerms, mulWith l X ≠ DTerms.nil
  | .named d m o uf, _, l => mergeExp_ne_nil l (.named d m o uf) 1
  | .exp b e, _, l => mergeExp_ne_nil l b e
  | .prod .nil, hX, _ => absurd hX (by decide)
  | .prod (.cons t ts), hX, l => by
    have h2 := wfD_prod_cons hX
    show mulWithList (mulWith l t) ts ≠ DTerms.nil
    exact mulWithList_ne_nil ts (mulWith l t) (mulWith_ne_nil_of_wf t h2.1 l)

mutual
theorem divWith_ne_nil_of_ne : ∀ (X : DUnit) (l : DTerms),
    l ≠ DTerms.nil → divWith l X ≠ DTerms.nil
  | .named d m o uf, l, _ => mergeExp_ne_nil l (.named d m o uf) (-1)
  | .exp b e, l, _ => mergeExp_ne_nil l b (-e)
  | .prod ts, l, hne => divWithList_ne_nil ts l hne
theorem divWithList_ne_nil : ∀ (ts : DTerms) (l : DTerms),
    l ≠ DTerms.nil → divWithList l ts ≠ DTerms.nil
  | .nil, _, hne => hne
  | .cons t ts, l, hne =>
    divWithList_ne_nil ts (divWith l t) (divWith_ne_nil_of_ne t l hne)
end

/-! ## Dynamic cancellation and idempotence -/

theorem wfD_prod_of_ne {l : DTerms} (hl : wfDL l = true) (hne : l ≠ DTerms.nil) :
    wfD (DUnit.prod l) = true := by
  cases l with
  | nil => exact absurd rfl hne
  | cons t ts => exact wfD_prod_mk hl

theorem unitEqD_same_values {a b : DUnit}
    (ha : wfD a = true) (hb : wfD b = true)
    (hd : vdim a = vdim b) (hm : vmag a = vmag b) : unitEqD a b := by
  obtain ⟨r1, hr1, hg1, hv1⟩ := dMag_eval a ha
  obtain ⟨r2, hr2, hg2, hv2⟩ := dMag_eval b hb
  refine ⟨?_, ?_, ?_⟩
  · rw [dDim_eval a ha, dDim_eval b hb, hd]
  · rw [hr1, hr2, rational_eq_of_toQ_eq hg1.1 hg2.1 (by rw [hv1, hv2, hm])]
  · rw [dOrigin_none a ha, dOrigin_none b hb]

/-- The dynamic algebra cancels: (U * V) / V has the same dimension,
magnitude and origin as simplify(U), for well-formed descriptions. -/
theorem dyn_cancel (U V : DUnit) (hU : wfD U = true) (hV : wfD V = true) :
    unitEqD (ddiv (dmul U V) V) (dsimplify U) := by
  have hl1w : wfDL (mulWith DTerms.nil U) = true := mulWith_wf U hU DTerms.nil rfl
  have hl1d : vdimL (mulWith DTerms.nil U) = vdim U := by
    rw [mulWith_vdim U hU DTerms.nil rfl]
    show dim_mul dimensionless (vdim U) = vdim U
    rw [dim_one_mul]
  have hl1m : vmagL (mulWith DTerms.nil U) = vmag U := by
    rw [mulWith_vmag U hU DTerms.nil rfl]
    show (1 : ℚ) * vmag U = vmag U
    rw [one_mul]
  have hl1n : mulWith DTerms.nil U ≠ DTerms.nil := mulWith_ne_nil_of_wf U hU DTerms.nil
  have hl2w : wfDL (mulWith (mulWith DTerms.nil U) V) = true :=
    mulWith_wf V hV _ hl1w
  have hl2d : vdimL (mulWith (mulWith DTerms.nil U) V) = dim_mul (vdim U) (vdim V) := by
    rw [mulWith_vdim V hV _ hl1w, hl1d]
  have hl2m : vmagL (mulWith (mulWith DTerms.nil U) V) = vmag U * vmag V := by
    rw [mulWith_vmag V hV _ hl1w, hl1m]
  have hl2n : mulWith (mulWith DTerms.nil U) V ≠ DTerms.nil :=
    mulWith_ne_nil_of_ne V _ hl1n
  have hp2 : wfD (DUnit.prod (mulWith (mulWith DTerms.nil U) V)) = true :=
    wfD_prod_of_ne hl2w hl2n
  have hWw : wfD (dmul U V) = true := dsimp_wf _ hp2
  have hWd : vdim (dmul U V) = dim_mul (vdim U) (vdim V) := by
    show vdim (dsimplify (DUnit.prod (mulWith (mulWith DTerms.nil U) V))) = _
    rw [dsimp_vdim _ hp2]
    show vdimL (mulWith (mulWith DTerms.nil U) V) = _
    exact hl2d
  have hWm : vmag (dmul U V) = vmag U * vmag V := by
    show vmag (dsimplify (DUnit.prod (mulWith (mulWith DTerms.nil U) V))) = _
    rw [dsimp_vmag _ hp2]
    exact hl2m
  have hl3w : wfDL (mulWith DTerms.nil (dmul U V)) = true :=
    mulWith_wf _ hWw DTerms.nil rfl
  have hl3d : vdimL (mulWith DTerms.nil (dmul U V)) = dim_mul (vdim U) (vdim V) := by
    rw [mulWith_vdim _ hWw DTerms.nil rfl]
    show dim_mul dimensionless _ = _
    rw [dim_one_mul, hWd]
  have hl3m : vmagL (mulWith DTerms.nil (dmul U V)) = vmag U * vmag V := by
    rw [mulWith_vmag _ hWw DTerms.nil rfl]
    show (1 : ℚ) * _ = _
    rw [one_mul, hWm]
  have hl3n : mulWith DTerms.nil (dmul U V) ≠ DTerms.nil :=
    mulWith_ne_nil_of_wf _ hWw DTerms.nil
  have hl4w : wfDL (divWith (mulWith DTerms.nil (dmul U V)) V) = true :=
    divWith_wf V hV _ hl3w
  have hl4d : vdimL (divWith (mulWith DTerms.nil (dmul U V)) V) = vdim U := by
    rw [divWith_vdim V hV _ hl3w, hl3d, dim_mul_cancel]
  have hl4m : vmagL (divWith (mulWith DTerms.nil (dmul U V)) V) = vmag U := by
    rw [divWith_vmag V hV _ hl3w, hl3m,
      mul_inv_cancel_right₀ (vmag_ne_zero V hV)]
  have hl4n : divWith (mulWith DTerms.nil (dmul U V)) V ≠ DTerms.nil :=
    divWith_ne_nil_of_ne V _ hl3n
  have hp4 : wfD (DUnit.prod (divWith (mulWith DTerms.nil (dmul U V)) V)) = true :=
    wfD_prod_of_ne hl4w hl4n
  have hRw : wfD (ddiv (dmul U V) V) = true := dsimp_wf _ hp4
  have hRd : vdim (ddiv (dmul U V) V) = vdim U := by
    show vdim (dsimplify (DUnit.prod (divWith (mulWith DTerms.nil (dmul U V)) V))) = _
    rw [dsimp_vdim _ hp4]
    exact hl4d
  have hRm : vmag (ddiv (dmul U V) V) = vmag U := by
    show vmag (dsimplify (DUnit.prod (divWith (mulWith DTerms.nil (dmul U V)) V))) = _
    rw [dsimp_vmag _ hp4]
    exact hl4m
  exact unitEqD_same_values hRw (dsimp_wf U hU)
    (by rw [hRd, dsimp_vdim U hU])
    (by rw [hRm, dsimp_vmag U hU])

/-- Dynamic simplify is idempotent up to the unit-equality test on
well-formed descriptions. -/
theorem dyn_idem (X : DUnit) (h : wfD X = true) :
    unitEqD (dsimplify (dsimplify X)) (dsimplify X) :=
  unitEqD_same_values (dsimp_wf _ (dsimp_wf X h)) (dsimp_wf X h)
    (dsimp_vdim _ (dsimp_wf X h)) (dsimp_vmag _ (dsimp_wf X h))

/-! ## Static well-formedness and value lemmas -/

theorem wfS_leaf {i : Nat} {d : dimension} {m : rational} {o : Option rational}
    (h : wfS (.leaf i d m o) = true) : o = none ∧ goodr m := by
  rw [wfS] at h
  simp_all

theorem wfS_rel {b : SUnit} : wfS (.rel b) = wfS b := rfl

theorem wfS_pow {b : SUnit} {e : Int} : wfS (.pow b e) = wfS b := rfl

theorem wfS_prod {ts : STerms} : wfS (.prod ts) = wfSL ts := rfl

theorem wfSL_cons {t : SUnit} {ts : STerms}
    (h : wfSL (.cons t ts) = true) : wfS t = true ∧ wfSL ts = true := by
  rw [wfSL] at h
  simp_all

theorem wfSL_mk {t : SUnit} {ts : STerms}
    (h1 : wfS t = true) (h2 : wfSL ts = true) : wfSL (STerms.cons t ts) = true := by
  show (wfS t && wfSL ts) = true
  rw [h1, h2]
  rfl

theorem sOrigin_none : ∀ u : SUnit, wfS u = true → sOrigin u = none
  | .leaf _ _ _ _, h => (wfS_leaf h).1
  | .rel _, _ => rfl
  | .pow _ _, _ => rfl
  | .prod _, _ => rfl

theorem sDimL_cons (t : SUnit) (ts : STerms) :
    sDimensionL (.cons t ts) = dim_mul (sDimension t) (sDimensionL ts) := by
  cases ts with
  | nil =>
    show sDimension t = dim_mul (sDimension t) dimensionless
    rw [dim_mul_one]
  | cons v vs => rfl

mutual
theorem sMag_goodr : ∀ u : SUnit, wfS u = true → goodr (sMagnitude u)
  | .leaf _ _ _ _, h => (wfS_leaf h).2
  | .rel b, h => sMag_goodr b (wfS_rel ▸ h)
  | .pow b e, h => goodr_rpow (sMag_goodr b (wfS_pow ▸ h)) e
  | .prod ts, h => sMagL_goodr ts (wfS_prod ▸ h)
theorem sMagL_goodr : ∀ ts : STerms, wfSL ts = true → goodr (sMagnitudeL ts)
  | .nil, _ => goodr_one
  | .cons t .nil, h => sMag_goodr t (wfSL_cons h).1
  | .cons t (.cons v vs), h => by
    have h2 := wfSL_cons h
    show goodr (rmul (sMagnitude t) (sMagnitudeL (STerms.cons v vs)))
    exact goodr_rmul (sMag_goodr t h2.1) (sMagL_goodr (STerms.cons v vs) h2.2)
end

theorem sMagL_cons {t : SUnit} {ts : STerms}
    (h1 : wfS t = true) (h2 : wfSL ts = true) :
    toQ (sMagnitudeL (.cons t ts)) = toQ (sMagnitude t) * toQ (sMagnitudeL ts) := by
  cases ts with
  | nil =>
    show toQ (sMagnitude t) = toQ (sMagnitude t) * toQ (rmk1 1)
    rw [toQ_one, mul_one]
  | cons v vs =>
    show toQ (rmul (sMagnitude t) (sMagnitudeL (STerms.cons v vs))) = _
    exact toQ_rmul (reduced_den_ne_zero (sMag_goodr t h1).1)
      (reduced_den_ne_zero (sMagL_goodr (STerms.cons v vs) h2).1)

theorem sMagQ_ne_zero (u : SUnit) (h : wfS u = true) : toQ (sMagnitude u) ≠ 0 :=
  toQ_ne_zero (sMag_goodr u h)

/-! ## Value of the static power-fold operations -/

theorem smulPT_wf : ∀ (l : STerms) (b : SUnit) (e : Int),
    wfSL l = true → wfS b = true → wfSL (smulPowTerms l b e) = true
  | .nil, b, _, _, hb => wfSL_mk hb rfl
  | .cons (.pow b1 e1) ts, b, e, hl, hb => by
    have h2 := wfSL_cons hl
    show wfSL (if b1 = b then STerms.cons (.pow b (e1 + e)) ts
      else STerms.cons (.pow b1 e1) (smulPowTerms ts b e)) = true
    by_cases hq : b1 = b
    · rw [if_pos hq]
      exact wfSL_mk hb h2.2
    · rw [if_neg hq]
      exact wfSL_mk h2.1 (smulPT_wf ts b e h2.2 hb)
  | .cons (.leaf i d m o) ts, b, e, hl, hb => by
    have h2 := wfSL_cons hl
    show wfSL (STerms.cons (.leaf i d m o) (smulPowTerms ts b e)) = true
    exact wfSL_mk h2.1 (smulPT_wf ts b e h2.2 hb)
  | .cons (.rel r) ts, b, e, hl, hb => by
    have h2 := wfSL_cons hl
    show wfSL (STerms.cons (.rel r) (smulPowTerms ts b e)) = true
    exact wfSL_mk h2.1 (smulPT_wf ts b e h2.2 hb)
  | .cons (.prod ps) ts, b, e, hl, hb => by
    have h2 := wfSL_cons hl
    show wfSL (STerms.cons (.prod ps) (smulPowTerms ts b e)) = true
    exact wfSL_mk h2.1 (smulPT_wf ts b e h2.2 hb)

theorem smulPT_dim : ∀ (l : STerms) (b : SUnit) (e : Int),
    wfSL l = true → wfS b = true →
    sDimensionL (smulPowTerms l b e)
      = dim_mul (sDimensionL l) (dim_pow (sDimension b) e)
  | .nil, b, e, _, _ => by
    show sDimensionL (STerms.cons (.pow b e) .nil) = _
    rw [sDimL_cons]
    show dim_mul (dim_pow (sDimension b) e) dimensionless
      = dim_mul dimensionless (dim_pow (sDimension b) e)
    rw [dim_mul_one, dim_one_mul]
  | .cons (.pow b1 e1) ts, b, e, hl, hb => by
    have h2 := wfSL_cons hl
    show sDimensionL (if b1 = b then STerms.cons (.pow b (e1 + e)) ts
      else STerms.cons (.pow b1 e1) (smulPowTerms ts b e)) = _
    by_cases hq : b1 = b
    · rw [if_pos hq, sDimL_cons, sDimL_cons]
      subst hq
      show dim_mul (dim_pow (sDimension b1) (e1 + e)) (sDimensionL ts)
        = dim_mul (dim_mul (dim_pow (sDimension b1) e1) (sDimensionL ts))
            (dim_pow (sDimension b1) e)
      rw [dim_pow_add, dim_mul_right_comm]
    · rw [if_neg hq, sDimL_cons, sDimL_cons,
        smulPT_dim ts b e h2.2 hb, ← dim_mul_assoc]
  | .cons (.leaf i d m o) ts, b, e, hl, hb => by
    have h2 := wfSL_cons hl
    show sDimensionL (STerms.cons (.leaf i d m o) (smulPowTerms ts b e)) = _
    rw [sDimL_cons, sDimL_cons, smulPT_dim ts b e h2.2 hb, ← dim_mul_assoc]
  | .cons (.rel r) ts, b, e, hl, hb => by
    have h2 := wfSL_cons hl
    show sDimensionL (STerms.cons (.rel r) (smulPowTerms ts b e)) = _
    rw [sDimL_cons, sDimL_cons, smulPT_dim ts b e h2.2 hb, ← dim_mul_assoc]
  | .cons (.prod ps) ts, b, e, hl, hb => by
    have h2 := wfSL_cons hl
    show sDimensionL (STerms.cons (.prod ps) (smulPowTerms ts b e)) = _
    rw [sDimL_cons, sDimL_cons, smulPT_dim ts b e h2.2 hb, ← dim_mul_assoc]

theorem smulPT_mag : ∀ (l : STerms) (b : SUnit) (e : Int),
    wfSL l = true → wfS b = true →
    toQ (sMagnitudeL (smulPowTerms l b e))
      = toQ (sMagnitudeL l) * toQ (sMagnitude b) ^ e
  | .nil, b, e, _, hb => by
    show toQ (sMagnitudeL (STerms.cons (.pow b e) .nil)) = _
    rw [sMagL_cons (show wfS (SUnit.pow b e) = true from hb)
      (show wfSL STerms.nil = true from rfl)]
    show toQ (rpow (sMagnitude b) e) * toQ (rmk1 1) = _
    rw [toQ_one, toQ_rpow (sMag_goodr b hb), mul_one]
    show _ = toQ (rmk1 1) * toQ (sMagnitude b) ^ e
    rw [toQ_one, one_mul]
  | .cons (.pow b1 e1) ts, b, e, hl, hb => by
    have h2 := wfSL_cons hl
    show toQ (sMagnitudeL (if b1 = b then STerms.cons (.pow b (e1 + e)) ts
      else STerms.cons (.pow b1 e1) (smulPowTerms ts b e))) = _
    by_cases hq : b1 = b
    · rw [if_pos hq]
      rw [sMagL_cons (show wfS (SUnit.pow b (e1 + e)) = true from hb) h2.2]
      rw [sMagL_cons h2.1 h2.2]
      show toQ (rpow (sMagnitude b) (e1 + e)) * toQ (sMagnitudeL ts)
        = toQ (rpow (sMagnitude b1) e1) * toQ (sMagnitudeL ts) * toQ (sMagnitude b) ^ e
      rw [hq]
      rw [toQ_rpow (sMag_goodr b hb), toQ_rpow (sMag_goodr b hb),
        zpow_add₀ (sMagQ_ne_zero b hb)]
      ring
    · rw [if_neg hq, sMagL_cons h2.1 (smulPT_wf ts b e h2.2 hb),
        sMagL_cons h2.1 h2.2, smulPT_mag ts b e h2.2 hb]
      ring
  | .cons (.leaf i d m o) ts, b, e, hl, hb => by
    have h2 := wfSL_cons hl
    show toQ (sMagnitudeL (STerms.cons (.leaf i d m o) (smulPowTerms ts b e))) = _
    rw [sMagL_cons h2.1 (smulPT_wf ts b e h2.2 hb),
      sMagL_cons h2.1 h2.2, smulPT_mag ts b e h2.2 hb]
    ring
  | .cons (.rel r) ts, b, e, hl, hb => by
    have h2 := wfSL_cons hl
    show toQ (sMagnitudeL (STerms.cons (.rel r) (smulPowTerms ts b e))) = _
    rw [sMagL_cons h2.1 (smulPT_wf ts b e h2.2 hb),
      sMagL_cons h2.1 h2.2, smulPT_mag ts b e h2.2 hb]
    ring
  | .cons (.prod ps) ts, b, e, hl, hb => by
    have h2 := wfSL_cons hl
    show toQ (sMagnitudeL (STerms.cons (.prod ps) (smulPowTerms ts b e))) = _
    rw [sMagL_cons h2.1 (smulPT_wf ts b e h2.2 hb),
      sMagL_cons h2.1 h2.2, smulPT_mag ts b e h2.2 hb]
    ring

theorem sdivPT_wf : ∀ (l : STerms) (b : SUnit) (e : Int),
    wfSL l = true → wfS b = true → wfSL (sdivPowTerms l b e) = true
  | .nil, b, _, _, hb => wfSL_mk hb rfl
  | .cons (.pow b1 e1) ts, b, e, hl, hb => by
    have h2 := wfSL_cons hl
    show wfSL (if b1 = b then STerms.cons (.pow b (e1 - e)) ts
      else STerms.cons (.pow b1 e1) (sdivPowTerms ts b e)) = true
    by_cases hq : b1 = b
    · rw [if_pos hq]
      exact wfSL_mk hb h2.2
    · rw [if_neg hq]
      exact wfSL_mk h2.1 (sdivPT_wf ts b e h2.2 hb)
  | .cons (.leaf i d m o) ts, b, e, hl, hb => by
    have h2 := wfSL_cons hl
    show wfSL (STerms.cons (.leaf i d m o) (sdivPowTerms ts b e)) = true
    exact wfSL_mk h2.1 (sdivPT_wf ts b e h2.2 hb)
  | .cons (.rel r) ts, b, e, hl, hb => by
    have h2 := wfSL_cons hl
    show wfSL (STerms.cons (.rel r) (sdivPowTerms ts b e)) = true
    exact wfSL_mk h2.1 (sdivPT_wf ts b e h2.2 hb)
  | .cons (.prod ps) ts, b, e, hl, hb => by
    have h2 := wfSL_cons hl
    show wfSL (STerms.cons (.prod ps) (sdivPowTerms ts b e)) = true
    exact wfSL_mk h2.1 (sdivPT_wf ts b e h2.2 hb)

theorem sdivPT_dim : ∀ (l : STerms) (b : SUnit) (e : Int),
    wfSL l = true → wfS b = true →
    sDimensionL (sdivPowTerms l b e)
      = dim_mul (sDimensionL l) (dim_pow (sDimension b) (-e))
  | .nil, b, e, _, _ => by
    show sDimensionL (STerms.cons (.pow b (-e)) .nil) = _
    rw [sDimL_cons]
    show dim_mul (dim_pow (sDimension b) (-e)) dimensionless
      = dim_mul dimensionless (dim_pow (sDimension b) (-e))
    rw [dim_mul_one, dim_one_mul]
  | .cons (.pow b1 e1) ts, b, e, hl, hb => by
    have h2 := wfSL_cons hl
    show sDimensionL (if b1 = b then STerms.cons (.pow b (e1 - e)) ts
      else STerms.cons (.pow b1 e1) (sdivPowTerms ts b e)) = _
    by_cases hq : b1 = b
    · rw [if_pos hq, sDimL_cons, sDimL_cons]
      show dim_mul (dim_pow (sDimension b) (e1 - e)) (sDimensionL ts)
        = dim_mul (dim_mul (dim_pow (sDimension b1) e1) (sDimensionL ts))
            (dim_pow (sDimension b) (-e))
      rw [hq, show e1 - e = e1 + (-e) by ring, dim_pow_add, dim_mul_right_comm]
    · rw [if_neg hq, sDimL_cons, sDimL_cons,
        sdivPT_dim ts b e h2.2 hb, ← dim_mul_assoc]
  | .cons (.leaf i d m o) ts, b, e, hl, hb => by
    have h2 := wfSL_cons hl
    show sDimensionL (STerms.cons (.leaf i d m o) (sdivPowTerms ts b e)) = _
    rw [sDimL_cons, sDimL_cons, sdivPT_dim ts b e h2.2 hb, ← dim_mul_assoc]
  | .cons (.rel r) ts, b, e, hl, hb => by
    have h2 := wfSL_cons hl
    show sDimensionL (STerms.cons (.rel r) (sdivPowTerms ts b e)) = _
    rw [sDimL_cons, sDimL_cons, sdivPT_dim ts b e h2.2 hb, ← dim_mul_assoc]
  | .cons (.prod ps) ts, b, e, hl, hb => by
    have h2 := wfSL_cons hl
    show sDimensionL (STerms.cons (.prod ps) (sdivPowTerms ts b e)) = _
    rw [sDimL_cons, sDimL_cons, sdivPT_dim ts b e h2.2 hb, ← dim_mul_assoc]

theorem sdivPT_mag : ∀ (l : STerms) (b : SUnit) (e : Int),
    wfSL l = true → wfS b = true →
    toQ (sMagnitudeL (sdivPowTerms l b e))
      = toQ (sMagnitudeL l) * toQ (sMagnitude b) ^ (-e)
  | .nil, b, e, _, hb => by
    show toQ (sMagnitudeL (STerms.cons (.pow b (-e)) .nil)) = _
    rw [sMagL_cons (show wfS (SUnit.pow b (-e)) = true from hb)
      (show wfSL STerms.nil = true from rfl)]
    show toQ (rpow (sMagnitude b) (-e)) * toQ (rmk1 1) = _
    rw [toQ_one, toQ_rpow (sMag_goodr b hb), mul_one]
    show _ = toQ (rmk1 1) * toQ (sMagnitude b) ^ (-e)
    rw [toQ_one, one_mul]
  | .cons (.pow b1 e1) ts, b, e, hl, hb => by
    have h2 := wfSL_cons hl
    show toQ (sMagnitudeL (if b1 = b then STerms.cons (.pow b (e1 - e)) ts
      else STerms.cons (.pow b1 e1) (sdivPowTerms ts b e))) = _
    by_cases hq : b1 = b
    · rw [if_pos hq]
      rw [sMagL_cons (show wfS (SUnit.pow b (e1 - e)) = true from hb) h2.2]
      rw [sMagL_cons h2.1 h2.2]
      show toQ (rpow (sMagnitude b) (e1 - e)) * toQ (sMagnitudeL ts)
        = toQ (rpow (sMagnitude b1) e1) * toQ (sMagnitudeL ts)
            * toQ (sMagnitude b) ^ (-e)
      rw [hq]
      rw [toQ_rpow (sMag_goodr b hb), toQ_rpow (sMag_goodr b hb),
        show e1 - e = e1 + (-e) by ring,
        zpow_add₀ (sMagQ_ne_zero b hb)]
      ring
    · rw [if_neg hq, sMagL_cons h2.1 (sdivPT_wf ts b e h2.2 hb),
        sMagL_cons h2.1 h2.2, sdivPT_mag ts b e h2.2 hb]
      ring
  | .cons (.leaf i d m o) ts, b, e, hl, hb => by
    have h2 := wfSL_cons hl
    show toQ (sMagnitudeL (STerms.cons (.leaf i d m o) (sdivPowTerms ts b e))) = _
    rw [sMagL_cons h2.1 (sdivPT_wf ts b e h2.2 hb),
      sMagL_cons h2.1 h2.2, sdivPT_mag ts b e h2.2 hb]
    ring
  | .cons (.rel r) ts, b, e, hl, hb => by
    have h2 := wfSL_cons hl
    show toQ (sMagnitudeL (STerms.cons (.rel r) (sdivPowTerms ts b e))) = _
    rw [sMagL_cons h2.1 (sdivPT_wf ts b e h2.2 hb),
      sMagL_cons h2.1 h2.2, sdivPT_mag ts b e h2.2 hb]
    ring
  | .cons (.prod ps) ts, b, e, hl, hb => by
    have h2 := wfSL_cons hl
    show toQ (sMagnitudeL (STerms.cons (.prod ps) (sdivPowTerms ts b e))) = _
    rw [sMagL_cons h2.1 (sdivPT_wf ts b e h2.2 hb),
      sMagL_cons h2.1 h2.2, sdivPT_mag ts b e h2.2 hb]
    ring

theorem dim_div_one (a : dimension) : dim_div a dimensionless = a := by
  cases a
  simp only [dim_div, dimensionless, dimension.mk.injEq]
  omega

mutual
theorem smulWith_spec : ∀ (B : SUnit), wfS B = true → ∀ l : STerms, wfSL l = true →
    ∃ l2, smulWith (.prod l) B = .prod l2 ∧ wfSL l2 = true ∧
      sDimensionL l2 = dim_mul (sDimensionL l) (sDimension B) ∧
      toQ (sMagnitudeL l2) = toQ (sMagnitudeL l) * toQ (sMagnitude B)
  | .pow b e, hB, l, hl => by
    refine ⟨smulPowTerms l b e, rfl, smulPT_wf l b e hl (wfS_pow ▸ hB), ?_, ?_⟩
    · rw [smulPT_dim l b e hl (wfS_pow ▸ hB)]
      rfl
    · rw [smulPT_mag l b e hl (wfS_pow ▸ hB)]
      show _ = toQ (sMagnitudeL l) * toQ (rpow (sMagnitude b) e)
      rw [toQ_rpow (sMag_goodr b (wfS_pow ▸ hB))]
  | .leaf i d m o, hB, l, hl => by
    refine ⟨smulPowTerms l (.leaf i d m o) 1, rfl,
      smulPT_wf l (.leaf i d m o) 1 hl hB, ?_, ?_⟩
    · rw [smulPT_dim l (.leaf i d m o) 1 hl hB]
      show dim_mul (sDimensionL l) (dim_pow d 1) = dim_mul (sDimensionL l) d
      rw [dim_pow_one]
    · rw [smulPT_mag l (.leaf i d m o) 1 hl hB]
      show toQ (sMagnitudeL l) * toQ m ^ (1 : Int) = toQ (sMagnitudeL l) * toQ m
      rw [zpow_one]
  | .rel b, hB, l, hl => by
    refine ⟨smulPowTerms l (.rel b) 1, rfl,
      smulPT_wf l (.rel b) 1 hl hB, ?_, ?_⟩
    · rw [smulPT_dim l (.rel b) 1 hl hB]
      show dim_mul (sDimensionL l) (dim_pow (sDimension b) 1)
        = dim_mul (sDimensionL l) (sDimension b)
      rw [dim_pow_one]
    · rw [smulPT_mag l (.rel b) 1 hl hB]
      show toQ (sMagnitudeL l) * toQ (sMagnitude b) ^ (1 : Int)
        = toQ (sMagnitudeL l) * toQ (sMagnitude b)
      rw [zpow_one]
  | .prod ts, hB, l, hl => by
    obtain ⟨l2, he, hw, hd, hm⟩ := smulWithList_spec ts (wfS_prod ▸ hB) l hl
    exact ⟨l2, he, hw, hd, hm⟩
theorem smulWithList_spec : ∀ (ts : STerms), wfSL ts = true → ∀ l : STerms, wfSL l = true →
    ∃ l2, smulWithList (.prod l) ts = .prod l2 ∧ wfSL l2 = true ∧
      sDimensionL l2 = dim_mul (sDimensionL l) (sDimensionL ts) ∧
      toQ (sMagnitudeL l2) = toQ (sMagnitudeL l) * toQ (sMagnitudeL ts)
  | .nil, _, l, hl => by
    refine ⟨l, rfl, hl, ?_, ?_⟩
    · show sDimensionL l = dim_mul (sDimensionL l) dimensionless
      rw [dim_mul_one]
    · show toQ (sMagnitudeL l) = toQ (sMagnitudeL l) * toQ (rmk1 1)
      rw [toQ_one, mul_one]
  | .cons f rest, hts, l, hl => by
    have h2 := wfSL_cons hts
    obtain ⟨l1, he1, hw1, hd1, hm1⟩ := smulWith_spec f h2.1 l hl
    obtain ⟨l2, he2, hw2, hd2, hm2⟩ := smulWithList_spec rest h2.2 l1 hw1
    refine ⟨l2, ?_, hw2, ?_, ?_⟩
    · show smulWithList (smulWith (.prod l) f) rest = .prod l2
      rw [he1]
      exact he2
    · rw [hd2, hd1, sDimL_cons, dim_mul_assoc]
    · rw [hm2, hm1, sMagL_cons h2.1 h2.2]
      ring
end

mutual
theorem sdivWith_spec : ∀ (B : SUnit), wfS B = true → ∀ l : STerms, wfSL l = true →
    ∃ l2, sdivWith (.prod l) B = .prod l2 ∧ wfSL l2 = true ∧
      sDimensionL l2 = dim_div (sDimensionL l) (sDimension B) ∧
      toQ (sMagnitudeL l2) = toQ (sMagnitudeL l) * (toQ (sMagnitude B))⁻¹
  | .pow b e, hB, l, hl => by
    refine ⟨sdivPowTerms l b e, rfl, sdivPT_wf l b e hl (wfS_pow ▸ hB), ?_, ?_⟩
    · rw [sdivPT_dim l b e hl (wfS_pow ▸ hB), dim_mul_pow_neg]
      rfl
    · rw [sdivPT_mag l b e hl (wfS_pow ▸ hB), zpow_neg]
      show _ = toQ (sMagnitudeL l) * (toQ (rpow (sMagnitude b) e))⁻¹
      rw [toQ_rpow (sMag_goodr b (wfS_pow ▸ hB))]
  | .leaf i d m o, hB, l, hl => by
    refine ⟨sdivPowTerms l (.leaf i d m o) 1, rfl,
      sdivPT_wf l (.leaf i d m o) 1 hl hB, ?_, ?_⟩
    · rw [sdivPT_dim l (.leaf i d m o) 1 hl hB]
      show dim_mul (sDimensionL l) (dim_pow d (-1)) = dim_div (sDimensionL l) d
      rw [dim_mul_pow_neg _ _ 1, dim_pow_one]
    · rw [sdivPT_mag l (.leaf i d m o) 1 hl hB]
      show toQ (sMagnitudeL l) * toQ m ^ (-1 : Int)
        = toQ (sMagnitudeL l) * (toQ m)⁻¹
      rw [zpow_neg, zpow_one]
  | .rel b, hB, l, hl => by
    refine ⟨sdivPowTerms l (.rel b) 1, rfl,
      sdivPT_wf l (.rel b) 1 hl hB, ?_, ?_⟩
    · rw [sdivPT_dim l (.rel b) 1 hl hB]
      show dim_mul (sDimensionL l) (dim_pow (sDimension b) (-1))
        = dim_div (sDimensionL l) (sDimension b)
      rw [dim_mul_pow_neg _ _ 1, dim_pow_one]
    · rw [sdivPT_mag l (.rel b) 1 hl hB]
      show toQ (sMagnitudeL l) * toQ (sMagnitude b) ^ (-1 : Int)
        = toQ (sMagnitudeL l) * (toQ (sMagnitude b))⁻¹
      rw [zpow_neg, zpow_one]
  | .prod ts, hB, l, hl => by
    obtain ⟨l2, he, hw, hd, hm⟩ := sdivWithList_spec ts (wfS_prod ▸ hB) l hl
    exact ⟨l2, he, hw, hd, hm⟩
theorem sdivWithList_spec : ∀ (ts : STerms), wfSL ts = true → ∀ l : STerms, wfSL l = true →
    ∃ l2, sdivWithList (.prod l) ts = .prod l2 ∧ wfSL l2 = true ∧
      sDimensionL l2 = dim_div (sDimensionL l) (sDimensionL ts) ∧
      toQ (sMagnitudeL l2) = toQ (sMagnitudeL l) * (toQ (sMagnitudeL ts))⁻¹
  | .nil, _, l, hl => by
    refine ⟨l, rfl, hl, ?_, ?_⟩
    · show sDimensionL l = dim_div (sDimensionL l) dimensionless
      rw [dim_div_one]
    · show toQ (sMagnitudeL l) = toQ (sMagnitudeL l) * (toQ (rmk1 1))⁻¹
      rw [toQ_one, inv_one, mul_one]
  | .cons f rest, hts, l, hl => by
    have h2 := wfSL_cons hts
    obtain ⟨l1, he1, hw1, hd1, hm1⟩ := sdivWith_spec f h2.1 l hl
    obtain ⟨l2, he2, hw2, hd2, hm2⟩ := sdivWithList_spec rest h2.2 l1 hw1
    refine ⟨l2, ?_, hw2, ?_, ?_⟩
    · show sdivWithList (sdivWith (.prod l) f) rest = .prod l2
      rw [he1]
      exact he2
    · rw [hd2, hd1, sDimL_cons, dim_div_div]
    · rw [hm2, hm1, sMagL_cons h2.1 h2.2, mul_inv]
      ring
end

theorem canonicalizeS_spec (A : SUnit) (hA : wfS A = true) :
    ∃ l0, canonicalizeS A = .prod l0 ∧ wfSL l0 = true ∧
      sDimensionL l0 = sDimension A ∧
      toQ (sMagnitudeL l0) = toQ (sMagnitude A) := by
  obtain ⟨l0, he, hw, hd, hm⟩ := smulWith_spec A hA STerms.nil rfl
  refine ⟨l0, he, hw, ?_, ?_⟩
  · rw [hd]
    show dim_mul dimensionless (sDimension A) = sDimension A
    rw [dim_one_mul]
  · rw [hm]
    show toQ (rmk1 1) * toQ (sMagnitude A) = toQ (sMagnitude A)
    rw [toQ_one, one_mul]

/-! ## Preservation of the unit value by static simplify -/

theorem wfS_unitlessS : wfS unitlessS = true := by decide

mutual
theorem ssimp_wf : ∀ u : SUnit, wfS u = true → wfS (ssimplify u) = true
  | .leaf _ _ _ _, h => h
  | .rel _, h => h
  | .pow b e, h => by
    show wfS (if e = 0 then unitlessS else if e = 1 then b else .pow b e) = true
    by_cases h0 : e = 0
    · rw [if_pos h0]
      exact wfS_unitlessS
    · rw [if_neg h0]
      by_cases h1 : e = 1
      · rw [if_pos h1]
        exact wfS_pow ▸ h
      · rw [if_neg h1]
        exact h
  | .prod ts, h => by
    have hts : wfSL (ssimpTerms ts) = true := ssimpTerms_wf ts (wfS_prod ▸ h)
    show wfS (sProdCollapse (ssimpTerms ts)) = true
    cases hl : ssimpTerms ts with
    | nil => exact wfS_unitlessS
    | cons u us =>
      rw [hl] at hts
      cases us with
      | nil => exact (wfSL_cons hts).1
      | cons v vs =>
        show wfSL (STerms.cons u (STerms.cons v vs)) = true
        exact hts
theorem ssimpTerms_wf : ∀ ts : STerms, wfSL ts = true → wfSL (ssimpTerms ts) = true
  | .nil, h => h
  | .cons t ts, h => by
    have h2 := wfSL_cons h
    show wfSL (prependUnlessUnitless (ssimplify t) (ssimpTerms ts)) = true
    unfold prependUnlessUnitless
    by_cases hc : ssimplify t = unitlessS
    · rw [if_pos hc]
      exact ssimpTerms_wf ts h2.2
    · rw [if_neg hc]
      exact wfSL_mk (ssimp_wf t h2.1) (ssimpTerms_wf ts h2.2)
end

mutual
theorem ssimp_dim : ∀ u : SUnit, wfS u = true → sDimension (ssimplify u) = sDimension u
  | .leaf _ _ _ _, _ => rfl
  | .rel _, _ => rfl
  | .pow b e, h => by
    show sDimension (if e = 0 then unitlessS else if e = 1 then b else .pow b e)
      = dim_pow (sDimension b) e
    by_cases h0 : e = 0
    · rw [if_pos h0, h0]
      show dimensionless = dim_pow (sDimension b) 0
      rw [dim_pow_zero]
    · rw [if_neg h0]
      by_cases h1 : e = 1
      · rw [if_pos h1, h1]
        show sDimension b = dim_pow (sDimension b) 1
        rw [dim_pow_one]
      · rw [if_neg h1]
        rfl
  | .prod ts, h => by
    have hterm := ssimpTerms_dim ts (wfS_prod ▸ h)
    show sDimension (sProdCollapse (ssimpTerms ts)) = sDimensionL ts
    cases hl : ssimpTerms ts with
    | nil =>
      rw [hl] at hterm
      show dimensionless = sDimensionL ts
      exact hterm
    | cons u us =>
      rw [hl] at hterm
      cases us with
      | nil =>
        show sDimension u = sDimensionL ts
        rw [← hterm]
        rfl
      | cons v vs =>
        show sDimensionL (STerms.cons u (STerms.cons v vs)) = sDimensionL ts
        exact hterm
theorem ssimpTerms_dim : ∀ ts : STerms, wfSL ts = true →
    sDimensionL (ssimpTerms ts) = sDimensionL ts
  | .nil, _ => rfl
  | .cons t ts, h => by
    have h2 := wfSL_cons h
    show sDimensionL (prependUnlessUnitless (ssimplify t) (ssimpTerms ts))
      = sDimensionL (STerms.cons t ts)
    unfold prependUnlessUnitless
    by_cases hc : ssimplify t = unitlessS
    · rw [if_pos hc]
      have hv := ssimp_dim t h2.1
      rw [hc] at hv
      rw [ssimpTerms_dim ts h2.2, sDimL_cons, ← hv]
      show sDimensionL ts = dim_mul dimensionless (sDimensionL ts)
      rw [dim_one_mul]
    · rw [if_neg hc, sDimL_cons, sDimL_cons, ssimp_dim t h2.1,
        ssimpTerms_dim ts h2.2]
end

mutual
theorem ssimp_mag : ∀ u : SUnit, wfS u = true →
    toQ (sMagnitude (ssimplify u)) = toQ (sMagnitude u)
  | .leaf _ _ _ _, _ => rfl
  | .rel _, _ => rfl
  | .pow b e, h => by
    have hb : wfS b = true := wfS_pow ▸ h
    show toQ (sMagnitude (if e = 0 then unitlessS else if e = 1 then b else .pow b e))
      = toQ (rpow (sMagnitude b) e)
    rw [toQ_rpow (sMag_goodr b hb)]
    by_cases h0 : e = 0
    · rw [if_pos h0, h0]
      show toQ (rmk1 1) = toQ (sMagnitude b) ^ (0 : Int)
      rw [toQ_one, zpow_zero]
    · rw [if_neg h0]
      by_cases h1 : e = 1
      · rw [if_pos h1, h1]
        show toQ (sMagnitude b) = toQ (sMagnitude b) ^ (1 : Int)
        rw [zpow_one]
      · rw [if_neg h1]
        show toQ (rpow (sMagnitude b) e) = toQ (sMagnitude b) ^ e
        rw [toQ_rpow (sMag_goodr b hb)]
  | .prod ts, h => by
    have hterm := ssimpTerms_mag ts (wfS_prod ▸ h)
    show toQ (sMagnitude (sProdCollapse (ssimpTerms ts))) = toQ (sMagnitudeL ts)
    cases hl : ssimpTerms ts with
    | nil =>
      rw [hl] at hterm
      show toQ (rmk1 1) = toQ (sMagnitudeL ts)
      exact hterm
    | cons u us =>
      rw [hl] at hterm
      cases us with
      | nil =>
        show toQ (sMagnitude u) = toQ (sMagnitudeL ts)
        rw [← hterm]
        rfl
      | cons v vs =>
        show toQ (sMagnitudeL (STerms.cons u (STerms.cons v vs))) = toQ (sMagnitudeL ts)
        exact hterm
theorem ssimpTerms_mag : ∀ ts : STerms, wfSL ts = true →
    toQ (sMagnitudeL (ssimpTerms ts)) = toQ (sMagnitudeL ts)
  | .nil, _ => rfl
  | .cons t ts, h => by
    have h2 := wfSL_cons h
    show toQ (sMagnitudeL (prependUnlessUnitless (ssimplify t) (ssimpTerms ts)))
      = toQ (sMagnitudeL (STerms.cons t ts))
    unfold prependUnlessUnitless
    by_cases hc : ssimplify t = unitlessS
    · rw [if_pos hc]
      have hv := ssimp_mag t h2.1
      rw [hc] at hv
      rw [ssimpTerms_mag ts h2.2, sMagL_cons h2.1 h2.2, ← hv]
      show toQ (sMagnitudeL ts) = toQ (rmk1 1) * toQ (sMagnitudeL ts)
      rw [toQ_one, one_mul]
    · rw [if_neg hc, sMagL_cons (ssimp_wf t h2.1) (ssimpTerms_wf ts h2.2),
        sMagL_cons h2.1 h2.2, ssimp_mag t h2.1, ssimpTerms_mag ts h2.2]
end

theorem unitEqS_same_values {a b : SUnit}
    (ha : wfS a = true) (hb : wfS b = true)
    (hd : sDimension a = sDimension b)
    (hm : toQ (sMagnitude a) = toQ (sMagnitude b)) : unitEqS a b :=
  ⟨hd, rational_eq_of_toQ_eq (sMag_goodr a ha).1 (sMag_goodr b hb).1 hm,
    by rw [sOrigin_none a ha, sOrigin_none b hb]⟩

/-- The static algebra cancels: divide<multiply<U, V>, V> has the same
(dimension, magnitude, origin) triple as simplify<U>. -/
theorem stat_cancel (U V : SUnit) (hU : wfS U = true) (hV : wfS V = true) :
    unitEqS (sdivide (smultiply U V) V) (ssimplify U) := by
  obtain ⟨l0, hc0, hw0, hd0, hm0⟩ := canonicalizeS_spec U hU
  obtain ⟨l2, he2, hw2, hd2, hm2⟩ := smulWith_spec V hV l0 hw0
  have hW : smultiply U V = ssimplify (.prod l2) := by
    unfold smultiply
    rw [hc0, he2]
  have hWwf : wfS (smultiply U V) = true := by
    rw [hW]
    exact ssimp_wf _ (wfS_prod ▸ hw2)
  have hWd : sDimension (smultiply U V) = dim_mul (sDimension U) (sDimension V) := by
    rw [hW, ssimp_dim _ (wfS_prod ▸ hw2)]
    show sDimensionL l2 = _
    rw [hd2, hd0]
  have hWm : toQ (sMagnitude (smultiply U V))
      = toQ (sMagnitude U) * toQ (sMagnitude V) := by
    rw [hW, ssimp_mag _ (wfS_prod ▸ hw2)]
    show toQ (sMagnitudeL l2) = _
    rw [hm2, hm0]
  obtain ⟨l3, hc3, hw3, hd3, hm3⟩ := canonicalizeS_spec (smultiply U V) hWwf
  obtain ⟨l4, he4, hw4, hd4, hm4⟩ := sdivWith_spec V hV l3 hw3
  have hR : sdivide (smultiply U V) V = ssimplify (.prod l4) := by
    unfold sdivide
    rw [hc3, he4]
  have hRwf : wfS (sdivide (smultiply U V) V) = true := by
    rw [hR]
    exact ssimp_wf _ (wfS_prod ▸ hw4)
  have hRd : sDimension (sdivide (smultiply U V) V) = sDimension U := by
    rw [hR, ssimp_dim _ (wfS_prod ▸ hw4)]
    show sDimensionL l4 = _
    rw [hd4, hd3, hWd, dim_mul_cancel]
  have hRm : toQ (sMagnitude (sdivide (smultiply U V) V)) = toQ (sMagnitude U) := by
    rw [hR, ssimp_mag _ (wfS_prod ▸ hw4)]
    show toQ (sMagnitudeL l4) = _
    rw [hm4, hm3, hWm, mul_inv_cancel_right₀ (sMagQ_ne_zero V hV)]
  exact unitEqS_same_values hRwf (ssimp_wf U hU)
    (by rw [hRd, ssimp_dim U hU])
    (by rw [hRm, ssimp_mag U hU])

/-- Static simplify is idempotent up to the static unit-equality test on
well-formed descriptions. -/
theorem stat_idem (X : SUnit) (h : wfS X = true) :
    unitEqS (ssimplify (ssimplify X)) (ssimplify X) :=
  unitEqS_same_values (ssimp_wf _ (ssimp_wf X h)) (ssimp_wf X h)
    (ssimp_dim _ (ssimp_wf X h)) (ssimp_mag _ (ssimp_wf X h))

/-! ## Claims C6 and C9 -/

/-- C6 counterexample: with an affine (absolute) temperature unit C,
(C * unitless) / unitless is a two-term product C * unitless^-1 whose
origin is absent, while simplify(C) = C keeps its origin, so the two
differ under the unit-equality test, in both realizations. -/
theorem c6_counterexample :
    ¬ unitEqD (ddiv (dmul celsiusD unitlessD) unitlessD) (dsimplify celsiusD) ∧
    ¬ unitEqS (sdivide (smultiply celsiusS unitlessS) unitlessS) (ssimplify celsiusS) := by
  constructor
  · intro h
    exact absurd h.2.2 (by decide)
  · intro h
    exact absurd h.2.2 (by decide)

/-- C6 amended: restricted to descriptions whose named leaves are
relative (absent origin) with reduced nonzero magnitudes (and, in the
dynamic realization, whose product nodes are nonempty), multiplying U by
V and dividing by V yields a result equal to simplify(U) under the
(dimension, magnitude, origin) unit-equality test, in both the static
and the dynamic algebra; and when the static operands denote the same
units as the dynamic operands, the two algebras' results denote the same
unit as well.  With an absolute unit the identity fails because a
leftover reciprocal term keeps the result a product, whose origin is
absent. -/
theorem c6_amended_cancellation (Us Vs : SUnit) (Ud Vd : DUnit)
    (hUs : wfS Us = true) (hVs : wfS Vs = true)
    (hUd : wfD Ud = true) (hVd : wfD Vd = true) :
    unitEqD (ddiv (dmul Ud Vd) Vd) (dsimplify Ud) ∧
    unitEqS (sdivide (smultiply Us Vs) Vs) (ssimplify Us) ∧
    ((dDimension Ud = some (sDimension Us) ∧
      dMagnitude Ud = some (sMagnitude Us) ∧
      dDimension Vd = some (sDimension Vs) ∧
      dMagnitude Vd = some (sMagnitude Vs)) →
      (dDimension (ddiv (dmul Ud Vd) Vd)
        = some (sDimension (sdivide (smultiply Us Vs) Vs)) ∧
       dMagnitude (ddiv (dmul Ud Vd) Vd)
        = some (sMagnitude (sdivide (smultiply Us Vs) Vs)) ∧
       dOrigin (ddiv (dmul Ud Vd) Vd)
        = sOrigin (sdivide (smultiply Us Vs) Vs))) := by
  have hdyn := dyn_cancel Ud Vd hUd hVd
  have hstat := stat_cancel Us Vs hUs hVs
  refine ⟨hdyn, hstat, ?_⟩
  rintro ⟨hed, hem, _hvd, _hvm⟩
  have hUdw : wfD (dsimplify Ud) = true := dsimp_wf Ud hUd
  have hUsw : wfS (ssimplify Us) = true := ssimp_wf Us hUs
  obtain ⟨rU, hrU, hgU, hvU⟩ := dMag_eval Ud hUd
  have hrUS : rU = sMagnitude Us := by
    rw [hrU] at hem
    exact Option.some.inj hem
  have hvds : vdim Ud = sDimension Us := by
    have := dDim_eval Ud hUd
    rw [this] at hed
    exact Option.some.inj hed
  refine ⟨?_, ?_, ?_⟩
  · rw [hdyn.1, hstat.1, dDim_eval _ hUdw, dsimp_vdim Ud hUd, hvds, ssimp_dim Us hUs]
  · rw [hdyn.2.1, hstat.2.1]
    obtain ⟨r2, hr2, hg2, hv2⟩ := dMag_eval _ hUdw
    rw [hr2]
    have : toQ r2 = toQ (sMagnitude (ssimplify Us)) := by
      rw [hv2, dsimp_vmag Ud hUd, ← hvU, hrUS, ssimp_mag Us hUs]
    rw [rational_eq_of_toQ_eq hg2.1 (sMag_goodr _ hUsw).1 this]
  · rw [hdyn.2.2, hstat.2.2, dOrigin_none _ hUdw, sOrigin_none _ hUsw]

/-- C6 witness: meter and second in both realizations. -/
theorem c6_witness :
    unitEqD (ddiv (dmul meterD secondD) secondD) (dsimplify meterD) ∧
    unitEqS (sdivide (smultiply meterS secondS) secondS) (ssimplify meterS) ∧
    ((dDimension meterD = some (sDimension meterS) ∧
      dMagnitude meterD = some (sMagnitude meterS) ∧
      dDimension secondD = some (sDimension secondS) ∧
      dMagnitude secondD = some (sMagnitude secondS)) →
      (dDimension (ddiv (dmul meterD secondD) secondD)
        = some (sDimension (sdivide (smultiply meterS secondS) secondS)) ∧
       dMagnitude (ddiv (dmul meterD secondD) secondD)
        = some (sMagnitude (sdivide (smultiply meterS secondS) secondS)) ∧
       dOrigin (ddiv (dmul meterD secondD) secondD)
        = sOrigin (sdivide (smultiply meterS secondS) secondS))) :=
  c6_amended_cancellation meterS secondS meterD secondD
    (by decide) (by decide) (by decide) (by decide)

/-- C9 counterexample: simplify of the exponent-1 power of an exponent-1
power of an affine temperature unit strips one layer per call, and the
twice-simplified result (the bare affine unit, with origin) differs under
the unit-equality test from the once-simplified result (a power node,
whose origin is absent); the same happens in the static realization. -/
theorem c9_counterexample :
    ¬ unitEqD (dsimplify (dsimplify (DUnit.exp (DUnit.exp celsiusD 1) 1)))
        (dsimplify (DUnit.exp (DUnit.exp celsiusD 1) 1)) ∧
    ¬ unitEqS (ssimplify (ssimplify (SUnit.pow (SUnit.pow celsiusS 1) 1)))
        (ssimplify (SUnit.pow (SUnit.pow celsiusS 1) 1)) := by
  constructor
  · intro h
    exact absurd h.2.2 (by decide)
  · intro h
    exact absurd h.2.2 (by decide)

/-- C9 amended: product simplification is idempotent up to the
(dimension, magnitude, origin) unit-equality test, in both realizations,
for descriptions whose named leaves are relative with reduced nonzero
magnitudes (and, dynamically, whose products are nonempty); for an
absolute unit under nested exponent-1 powers the double simplify peels a
second layer and changes the origin. -/
theorem c9_amended_idempotent (Xd : DUnit) (Xs : SUnit)
    (hd : wfD Xd = true) (hs : wfS Xs = true) :
    unitEqD (dsimplify (dsimplify Xd)) (dsimplify Xd) ∧
    unitEqS (ssimplify (ssimplify Xs)) (ssimplify Xs) :=
  ⟨dyn_idem Xd hd, stat_idem Xs hs⟩

/-- C9 witness: nested exponent-1 powers of meter in both realizations. -/
theorem c9_witness :
    unitEqD (dsimplify (dsimplify (DUnit.exp (DUnit.exp meterD 1) 1)))
        (dsimplify (DUnit.exp (DUnit.exp meterD 1) 1)) ∧
    unitEqS (ssimplify (ssimplify (SUnit.pow (SUnit.pow meterS 1) 1)))
        (ssimplify (SUnit.pow (SUnit.pow meterS 1) 1)) :=
  c9_amended_idempotent (DUnit.exp (DUnit.exp meterD 1) 1)
    (SUnit.pow (SUnit.pow meterS 1) 1) (by decide) (by decide)

end Kul
